import Mathlib

/-!
Verification of the chairs-planner floor-plan analyser.

The program parses an ASCII floor plan, extracts parenthesised room names
(`Plan.find_rooms`), and counts chair symbols per room with a breadth-first
flood fill (`Plan.find_chairs`).  We embed the grid as `List (List Char)`
(one inner list per text row), rooms as a structure with a four-field chair
tally, and the flood fill as a fuel-driven step function over an explicit
state that also records ghost logs (the order in which cells are expanded
and the order in which coordinates are appended to the frontier).
-/

set_option maxHeartbeats 1600000

namespace ChairsPlanner

/-! ## The program, embedded (definitions) -/

/-- `CHAIR_TYPES = ['W', 'P', 'S', 'C']` from the source. -/
def CHAIR_TYPES : List Char := ['W', 'P', 'S', 'C']

/-- `WALL_TYPES = ['+', '-', '|', '\\', '/', '\n']` from the source. -/
def WALL_TYPES : List Char := ['+', '-', '|', '\\', '/', '\n']

/-- `VISITED = 'X'` from the source. -/
def VISITED : Char := 'X'

/-- The chair tally of a room: the dict `{type: 0 for type in CHAIR_TYPES}`,
one field per chair category. -/
structure Chairs where
  w : Nat
  p : Nat
  s : Nat
  c : Nat
deriving DecidableEq, Repr

/-- The all-zero tally a fresh `Room` starts with. -/
def Chairs.zero : Chairs := ⟨0, 0, 0, 0⟩

/-- Read the tally of one category (`room.chairs[t]`); `0` for characters
outside the four categories. -/
def Chairs.get (ch : Chairs) (t : Char) : Nat :=
  if t = 'W' then ch.w else if t = 'P' then ch.p
  else if t = 'S' then ch.s else if t = 'C' then ch.c else 0

/-- `room.chairs[t] += 1` for `t` among the four categories. -/
def Chairs.incr (ch : Chairs) (t : Char) : Chairs :=
  if t = 'W' then { ch with w := ch.w + 1 }
  else if t = 'P' then { ch with p := ch.p + 1 }
  else if t = 'S' then { ch with s := ch.s + 1 }
  else if t = 'C' then { ch with c := ch.c + 1 }
  else ch

/-- `Room`: a name, an origin coordinate `(x, y)` and a chair tally. -/
structure Room where
  name : List Char
  x : Int
  y : Int
  chairs : Chairs
deriving DecidableEq, Repr

/-- `Plan._get(x, y)`: the character at column `x` of row `y`, or `none`
when either index is out of bounds. -/
def plan_get (plan : List (List Char)) (x y : Int) : Option Char :=
  if 0 ≤ x ∧ 0 ≤ y then (plan[y.toNat]?).bind (fun row => row[x.toNat]?)
  else none

/-- `Plan._set(x, y, value)`: replace the character at `(x, y)` when the
position is in bounds, otherwise leave the plan unchanged. -/
def plan_set (plan : List (List Char)) (x y : Int) (v : Char) :
    List (List Char) :=
  if 0 ≤ x ∧ 0 ≤ y then
    match plan[y.toNat]? with
    | some row =>
        if x.toNat < row.length then plan.set y.toNat (row.set x.toNat v)
        else plan
    | none => plan
  else plan

/-- `directions = [(0, 1), (0, -1), (1, 0), (-1, 0)]` (as `(dx, dy)`). -/
def directions : List (Int × Int) := [(0, 1), (0, -1), (1, 0), (-1, 0)]

/-- The enqueue test on a neighbour: `cell and (cell != VISITED) and
(cell not in WALL_TYPES)`. -/
def isOpen (plan : List (List Char)) (q : Int × Int) : Bool :=
  match plan_get plan q.1 q.2 with
  | some ch => ch ≠ VISITED ∧ ¬ ch ∈ WALL_TYPES
  | none => false

/-- The four orthogonal neighbour coordinates of a cell, in source order. -/
def neighborsAll (q : Int × Int) : List (Int × Int) :=
  directions.map (fun d => (q.1 + d.1, q.2 + d.2))

/-- The neighbours that pass the enqueue test, in source order. -/
def neighborsOpen (plan : List (List Char)) (q : Int × Int) :
    List (Int × Int) :=
  directions.filterMap (fun d =>
    let n : Int × Int := (q.1 + d.1, q.2 + d.2)
    if isOpen plan n then some n else none)

/-- The loop state of `find_chairs`: the plan, the frontier deque `q`, the
room's tally, plus two ghost logs — `trace` records each coordinate that
passes the visited check (in processing order) and `enqLog` records every
coordinate appended to the frontier (with multiplicity). -/
structure St where
  plan : List (List Char)
  q : List (Int × Int)
  chairs : Chairs
  trace : List (Int × Int)
  enqLog : List (Int × Int)
deriving DecidableEq, Repr

/-- One iteration of the `while q` loop of `find_chairs`. -/
def bfsStep (st : St) : St :=
  match st.q with
  | [] => st
  | hd :: rest =>
    let cell := plan_get st.plan hd.1 hd.2
    if cell = some VISITED then { st with q := rest }
    else
      let chairs' := match cell with
        | some ch => if ch ∈ CHAIR_TYPES then st.chairs.incr ch else st.chairs
        | none => st.chairs
      let plan' := plan_set st.plan hd.1 hd.2 VISITED
      let ns := neighborsOpen plan' hd
      { plan := plan', q := rest ++ ns, chairs := chairs',
        trace := st.trace ++ [hd], enqLog := st.enqLog ++ ns }

/-- Iterate `bfsStep` a given number of times. -/
def runSteps : Nat → St → St
  | 0, st => st
  | n + 1, st => runSteps n (bfsStep st)

/-- Number of in-bounds cells not yet holding the visited sentinel. -/
def unvisited (plan : List (List Char)) : Nat :=
  (plan.map (fun row => (row.filter (fun ch => ch ≠ VISITED)).length)).sum

/-- Number of queued coordinates that are out of bounds. -/
def oobCount (plan : List (List Char)) (q : List (Int × Int)) : Nat :=
  (q.filter (fun p => (plan_get plan p.1 p.2).isNone)).length

/-- A fuel bound that dominates the number of loop iterations. -/
def bfsFuel (plan : List (List Char)) (q : List (Int × Int)) : Nat :=
  5 * unvisited plan + 5 * oobCount plan q + q.length

/-- The initial loop state: frontier `deque([(room.x, room.y)])`. -/
def initSt (plan : List (List Char)) (room : Room) : St :=
  ⟨plan, [(room.x, room.y)], room.chairs, [], []⟩

/-- The state at which the `find_chairs` loop has drained its frontier
(the fuel is proved sufficient below). -/
def find_chairs_run (plan : List (List Char)) (room : Room) : St :=
  runSteps (bfsFuel plan [(room.x, room.y)]) (initSt plan room)

/-- `Plan.find_chairs(room)`: returns the mutated plan together with the
room carrying its updated tally. -/
def find_chairs (plan : List (List Char)) (room : Room) :
    List (List Char) × Room :=
  let st := find_chairs_run plan room
  (st.plan, { room with chairs := st.chairs })

/-- Specification-level reachability: the set of cells the fill processes.
The start cell is processed whenever it does not read as the visited
sentinel; from a processed cell the fill spreads to any orthogonal
neighbour that is in bounds, not the sentinel, and not a wall. -/
inductive reaches (plan : List (List Char)) (s : Int × Int) :
    Int × Int → Prop where
  | start : plan_get plan s.1 s.2 ≠ some VISITED → reaches plan s s
  | step : ∀ p q, reaches plan s p → q ∈ neighborsAll p →
      isOpen plan q = true → reaches plan s q

/-- Number of cells of `tr` whose character in plan `P` is `t`. -/
def countOrig (P : List (List Char)) (t : Char)
    (tr : List (Int × Int)) : Nat :=
  (tr.filter (fun p => plan_get P p.1 p.2 = some t)).length

/-- The loop invariant of the flood fill, relative to the original plan
`P`, the start coordinate `s0` and the initial tally `ch0`. -/
structure BfsInv (P : List (List Char)) (s0 : Int × Int) (ch0 : Chairs)
    (st : St) : Prop where
  planEq : ∀ a b : Int, plan_get st.plan a b =
    if (a, b) ∈ st.trace ∧ (plan_get P a b).isSome = true then some VISITED
    else plan_get P a b
  traceND : st.trace.Nodup
  traceReach : ∀ p ∈ st.trace, reaches P s0 p
  queueReach : ∀ p ∈ st.q, reaches P s0 p ∨ p = s0
  frontier : ∀ p ∈ st.trace, ∀ n ∈ neighborsAll p, isOpen P n = true →
    n ∈ st.trace ∨ n ∈ st.q
  startCov : plan_get P s0.1 s0.2 ≠ some VISITED →
    s0 ∈ st.trace ∨ s0 ∈ st.q
  oobBound : ∀ p : Int × Int, (plan_get P p.1 p.2).isNone = true →
    st.q.count p + st.trace.count p ≤ (if p = s0 then 1 else 0)
  chairsEq : ∀ t ∈ CHAIR_TYPES,
    st.chairs.get t = ch0.get t + countOrig P t st.trace

/-- `G` agrees with `P` except that the in-bounds cells of `S` carry the
visited sentinel. -/
def MarkedOn (P : List (List Char)) (S : Int × Int → Prop)
    (G : List (List Char)) : Prop :=
  ∀ p : Int × Int,
    (S p → plan_get G p.1 p.2 =
      (plan_get P p.1 p.2).map (fun _ => VISITED)) ∧
    (¬ S p → plan_get G p.1 p.2 = plan_get P p.1 p.2)

/-- `S` is closed under single open steps on plan `P`. -/
def SClosed (P : List (List Char)) (S : Int × Int → Prop) : Prop :=
  ∀ p q, S p → q ∈ neighborsAll p → isOpen P q = true → S q

/-- Running `find_chairs` on each room in turn, threading the plan —
the per-room loop of `main` restricted to its effect on the plan. -/
def fill_all (plan : List (List Char)) (rooms : List Room) :
    List (List Char) :=
  rooms.foldl (fun pl r => (find_chairs pl r).1) plan

/-- Membership in the union of the reachable sets of a list of rooms. -/
def unionReach (P : List (List Char)) (rooms : List Room)
    (p : Int × Int) : Prop :=
  ∃ r ∈ rooms, reaches P (r.x, r.y) p

/-- Python `str.strip()` whitespace (ASCII part). -/
def pyspace (ch : Char) : Bool :=
  ch == ' ' || ch == '\t' || ch == '\n' || ch == '\r' ||
    ch == '\x0b' || ch == '\x0c'

/-- `name.strip()`. -/
def trim (l : List Char) : List Char :=
  ((l.dropWhile pyspace).reverse.dropWhile pyspace).reverse

/-- Index of the first character at position `≥ i` satisfying `f`. -/
def firstIdxFrom (f : Char → Bool) (line : List Char) (i : Nat) :
    Option Nat :=
  ((line.drop i).findIdx? f).map (i + ·)

/-- The spans `(start, stop)` (`stop` exclusive) of the successive matches
of the regex `\(([^)]*)\)` in `line`, scanning from position `i`: the next
match starts at the first `(` at or after `i` and ends at the first `)`
after it.  `fuel` bounds the recursion; `line.length + 1` always
suffices. -/
def matchesFrom (line : List Char) : Nat → Nat → List (Nat × Nat)
  | 0, _ => []
  | fuel + 1, i =>
    match firstIdxFrom (fun ch => ch == '(') line i with
    | none => []
    | some a =>
      match firstIdxFrom (fun ch => ch == ')') line (a + 1) with
      | none => []
      | some b => (a, b + 1) :: matchesFrom line fuel (b + 1)

/-- All matches of the room-name pattern in one row. -/
def lineMatches (line : List Char) : List (Nat × Nat) :=
  matchesFrom line (line.length + 1) 0

/-- The inner text of a match (`match.group(1)`). -/
def matchInner (line : List Char) (m : Nat × Nat) : List Char :=
  (line.drop (m.1 + 1)).take (m.2 - m.1 - 2)

/-- The name-registration table: an association list in insertion order
(`found` in the source, a Python dict mapping a trimmed name to the
`(row, start)` position of its first occurrence). -/
def lookupFound (found : List (List Char × (Nat × Nat)))
    (n : List Char) : Option (Nat × Nat) :=
  (found.find? (fun e => e.1 == n)).map (·.2)

/-- The two error cases of `find_rooms`; both carry exactly the data the
source interpolates into the raised `RuntimeError` message. -/
inductive PlanError where
  | emptyName (pos : Nat × Nat)
  | duplicateName (name : List Char) (orig : Nat × Nat)
deriving DecidableEq, Repr

/-- Decimal rendering of a natural number. -/
def natChars (n : Nat) : List Char := Nat.toDigits 10 n

/-- Python `str((r, c))` for a pair: `"(r, c)"`. -/
def posRender (p : Nat × Nat) : List Char :=
  '(' :: (natChars p.1 ++ [',', ' '] ++ natChars p.2 ++ [')'])

/-- The message of the raised `RuntimeError`. -/
def PlanError.message : PlanError → List Char
  | .emptyName pos => "Empty room name at ".toList ++ posRender pos
  | .duplicateName n orig =>
      "Duplicate room name ".toList ++ n ++
        ", initially defined at ".toList ++ posRender orig

/-- The inner loop over the matches of one row: validates and registers
each name and rebuilds `replaced`, the row text with the processed match
spans blanked (`replaced` empty encodes the Python empty string). -/
def scanMatches (row : Nat) (line : List Char) :
    List (List Char × (Nat × Nat)) → List Char → List (Nat × Nat) →
      Except PlanError (List (List Char × (Nat × Nat)) × List Char)
  | found, replaced, [] => .ok (found, replaced)
  | found, replaced, m :: ms =>
    let name := trim (matchInner line m)
    if name = [] then .error (.emptyName (row, m.1))
    else
      match lookupFound found name with
      | some orig => .error (.duplicateName name orig)
      | none =>
        let base := if replaced = [] then line else replaced
        let replaced' := base.take m.1 ++
          List.replicate (m.2 - m.1) ' ' ++ line.drop m.2
        scanMatches row line (found ++ [(name, (row, m.1))]) replaced' ms

/-- The outer loop over the rows: each row's matches are scanned and, when
the whole row succeeded and produced a replacement, the row is committed.
On an error the current row and all later rows stay untouched. -/
def scanRows : List (List Char) → Nat →
    List (List Char × (Nat × Nat)) →
      List (List Char) × Except PlanError (List (List Char × (Nat × Nat)))
  | [], _, found => ([], .ok found)
  | line :: rest, row, found =>
    match scanMatches row line found [] (lineMatches line) with
    | .error e => (line :: rest, .error e)
    | .ok (found', replaced) =>
      let line' := if replaced = [] then line else replaced
      let out := scanRows rest (row + 1) found'
      (line' :: out.1, out.2)

/-- Lexicographic comparison of names by code point (Python `str` order
on the unique dict keys). -/
def nameLe : List Char → List Char → Bool
  | [], _ => true
  | _ :: _, [] => false
  | a :: as, b :: bs =>
    if a.val < b.val then true
    else if b.val < a.val then false
    else nameLe as bs

/-- Insert an entry into a name-sorted list. -/
def insertSorted (e : List Char × (Nat × Nat)) :
    List (List Char × (Nat × Nat)) → List (List Char × (Nat × Nat))
  | [] => [e]
  | f :: fs => if nameLe e.1 f.1 then e :: f :: fs else f :: insertSorted e fs

/-- `sorted(found.items())` (names are unique, so the sort is determined
by the name order alone). -/
def sortFound (found : List (List Char × (Nat × Nat))) :
    List (List Char × (Nat × Nat)) :=
  found.foldr insertSorted []

/-- `Room(name, x, y)` for each registered name, in sorted order: the
stored position is `(row, start)` and the room is built with
`x = start`, `y = row`. -/
def mkRooms (found : List (List Char × (Nat × Nat))) : List Room :=
  (sortFound found).map
    (fun e => ⟨e.1, (e.2.2 : Int), (e.2.1 : Int), Chairs.zero⟩)

/-- The outcome of `Plan.find_rooms()`: the (possibly partially erased)
plan, the `self.rooms` list after the call, and the raised error if any.
On success the new rooms are appended to the incoming `rooms` and the
whole list is returned; on an error `rooms` is left untouched. -/
structure FindRoomsOut where
  plan : List (List Char)
  rooms : List Room
  err : Option PlanError
deriving DecidableEq, Repr

/-- `Plan.find_rooms()`. -/
def find_rooms (plan : List (List Char)) (rooms : List Room) :
    FindRoomsOut :=
  match scanRows plan 0 [] with
  | (plan', .ok found) => ⟨plan', rooms ++ mkRooms found, none⟩
  | (plan', .error e) => ⟨plan', rooms, some e⟩

/-- `total.chairs[type] += count` for every category of a room's tally. -/
def chairsAdd (t r : Chairs) : Chairs :=
  ⟨t.w + r.w, t.p + r.p, t.s + r.s, t.c + r.c⟩

/-- The per-room loop of `main`: fill each room in order on the shared
plan, collect the filled rooms, and after each room's fill add that
room's whole tally into the running total. -/
def main_loop : List (List Char) → List Room → Room →
    List (List Char) × List Room × Room
  | plan, [], total => (plan, [], total)
  | plan, room :: rest, total =>
    let pr := find_chairs plan room
    let total' : Room :=
      { total with chairs := chairsAdd total.chairs pr.2.chairs }
    let out := main_loop pr.1 rest total'
    (out.1, pr.2 :: out.2.1, out.2.2)

/-- The effect of the call `plan.find_chairs(room)` on the driver state
`(plan, room, total)`: the fill updates the plan and the room, and does
not touch the total (it is not passed to `find_chairs`). -/
def find_chairs_call (plan : List (List Char)) (room total : Room) :
    List (List Char) × Room × Room :=
  ((find_chairs plan room).1, (find_chairs plan room).2, total)

/-- Modelled from the spec: the `ChairCounter` contract
`fill(grid, room, totalAccumulator)`, which performs the same breadth-first
traversal but, at each dequeued chair cell, increments the category in both
the room's tally and the total accumulator's tally. -/
def fillStepT (st : St × Chairs) : St × Chairs :=
  match st.1.q with
  | [] => st
  | hd :: rest =>
    let cell := plan_get st.1.plan hd.1 hd.2
    if cell = some VISITED then ({ st.1 with q := rest }, st.2)
    else
      let both := match cell with
        | some ch =>
            if ch ∈ CHAIR_TYPES then (st.1.chairs.incr ch, st.2.incr ch)
            else (st.1.chairs, st.2)
        | none => (st.1.chairs, st.2)
      let plan' := plan_set st.1.plan hd.1 hd.2 VISITED
      let ns := neighborsOpen plan' hd
      ({ plan := plan', q := rest ++ ns, chairs := both.1,
         trace := st.1.trace ++ [hd], enqLog := st.1.enqLog ++ ns },
       both.2)

/-- Modelled from the spec: iterate the accumulator-threading fill. -/
def runStepsT : Nat → St × Chairs → St × Chairs
  | 0, st => st
  | n + 1, st => runStepsT n (fillStepT st)

/-- Modelled from the spec: `fill(grid, room, totalAccumulator)` run to
completion; returns the plan, the room's updated tally and the total
accumulator's updated tally. -/
def fillWithTotal (plan : List (List Char)) (room : Room)
    (total : Chairs) : List (List Char) × Chairs × Chairs :=
  let out := runStepsT (bfsFuel plan [(room.x, room.y)])
    (initSt plan room, total)
  (out.1.plan, out.1.chairs, out.2)

/-- Specification of the matches reported from position `i`: each span is
the first `(` at or after the previous position paired with the first `)`
after it, and once the list ends no open-close pair remains. -/
inductive MatchSpec (ln : List Char) : Nat → List (Nat × Nat) → Prop where
  | nil : ∀ i,
      (∀ p q cp cq, i ≤ p → p < q → ln[p]? = some cp →
        ln[q]? = some cq → cp = '(' → cq ≠ ')') →
      MatchSpec ln i []
  | cons : ∀ i a b ms,
      i ≤ a →
      ln[a]? = some '(' →
      (∀ k ch, i ≤ k → k < a → ln[k]? = some ch → ch ≠ '(') →
      a < b →
      ln[b]? = some ')' →
      (∀ k ch, a < k → k < b → ln[k]? = some ch → ch ≠ ')') →
      MatchSpec ln (b + 1) ms →
      MatchSpec ln i ((a, b + 1) :: ms)

/-- Is position `j` inside one of the spans? -/
def covered : List (Nat × Nat) → Nat → Bool
  | [], _ => false
  | m :: ms, j => (decide (m.1 ≤ j) && decide (j < m.2)) || covered ms j

/-- The invariant of the `replaced` accumulator of the inner loop: empty
while nothing has matched, otherwise the original line with the spans
processed so far blanked out. -/
def ReplInv (ln : List Char) (done : List (Nat × Nat))
    (repl : List Char) : Prop :=
  (done = [] ∧ repl = []) ∨
  (repl.length = ln.length ∧
    ∀ j : Nat, repl[j]? =
      if covered done j = true then some ' ' else ln[j]?)

/-- The tokens of one row: trimmed names with `(row, start)` positions. -/
def rowTokens (row : Nat) (ln : List Char) (ms : List (Nat × Nat)) :
    List (List Char × (Nat × Nat)) :=
  ms.map (fun m => (trim (matchInner ln m), (row, m.1)))

/-- All tokens of the plan, rows top to bottom, left to right. -/
def planTokens : List (List Char) → Nat → List (List Char × (Nat × Nat))
  | [], _ => []
  | ln :: rest, row =>
      rowTokens row ln (lineMatches ln) ++ planTokens rest (row + 1)

/-- The pure registration fold over the token stream: exactly the
name-validation and `found`-updating part of the scan. -/
def procTokens : List (List Char × (Nat × Nat)) →
    List (List Char × (Nat × Nat)) →
      Except PlanError (List (List Char × (Nat × Nat)))
  | [], found => .ok found
  | t :: ts, found =>
    if t.1 = [] then .error (.emptyName t.2)
    else
      match lookupFound found t.1 with
      | some orig => .error (.duplicateName t.1 orig)
      | none => procTokens ts (found ++ [t])

/-- Position of the first token carrying a given name. -/
def firstPos (ts : List (List Char × (Nat × Nat))) (n : List Char) :
    Option (Nat × Nat) :=
  (ts.find? (fun t => t.1 == n)).map (·.2)

/-- Does `l` begin with `pat`? -/
def leadsWith : List Char → List Char → Bool
  | [], _ => true
  | _ :: _, [] => false
  | a :: as, b :: bs => a == b && leadsWith as bs

/-- Does `pat` occur as a contiguous subsequence of the second list? -/
def containsSeq (pat : List Char) : List Char → Bool
  | [] => leadsWith pat []
  | c :: cs => leadsWith pat (c :: cs) || containsSeq pat cs

/-! ## Verification (theorems) -/

theorem plan_get_neg_x {plan : List (List Char)} {x y : Int} (hx : x < 0) :
    plan_get plan x y = none := by
  unfold plan_get
  rw [if_neg]; omega

theorem plan_get_neg_y {plan : List (List Char)} {x y : Int} (hy : y < 0) :
    plan_get plan x y = none := by
  unfold plan_get
  rw [if_neg]; omega

theorem plan_get_nonneg {plan : List (List Char)} {x y : Int} {ch : Char}
    (h : plan_get plan x y = some ch) : 0 ≤ x ∧ 0 ≤ y := by
  by_contra hc
  rw [plan_get, if_neg hc] at h
  exact Option.noConfusion h

/-- Characterisation of reads after a write: the written cell is changed
exactly when it was in bounds; every other cell is untouched. -/
theorem plan_get_plan_set (plan : List (List Char)) (x y a b : Int)
    (v : Char) :
    plan_get (plan_set plan x y v) a b =
      if a = x ∧ b = y ∧ (plan_get plan x y).isSome then some v
      else plan_get plan a b := by
  by_cases hxy : 0 ≤ x ∧ 0 ≤ y
  · have hmain : plan_get plan x y =
        (plan[y.toNat]?).bind (fun row => row[x.toNat]?) := by
      rw [plan_get, if_pos hxy]
    unfold plan_set
    rw [if_pos hxy]
    cases hrow : plan[y.toNat]? with
    | none =>
        rw [hrow] at hmain
        rw [hmain]
        simp
    | some row =>
        dsimp only
        rw [hrow] at hmain
        have hmain' : plan_get plan x y = row[x.toNat]? := hmain
        by_cases hx : x.toNat < row.length
        · rw [if_pos hx]
          have hsome : (plan_get plan x y).isSome := by
            rw [hmain', List.getElem?_eq_getElem hx]; rfl
          have hylen : y.toNat < plan.length := by
            by_contra hc
            rw [List.getElem?_eq_none (by omega)] at hrow
            exact Option.noConfusion hrow
          by_cases hab : 0 ≤ a ∧ 0 ≤ b
          · have L : plan_get (plan.set y.toNat (row.set x.toNat v)) a b =
                ((plan.set y.toNat (row.set x.toNat v))[b.toNat]?).bind
                  (fun r => r[a.toNat]?) := by
              rw [plan_get, if_pos hab]
            have R : plan_get plan a b =
                (plan[b.toNat]?).bind (fun r => r[a.toNat]?) := by
              rw [plan_get, if_pos hab]
            rw [L]
            by_cases hby : b = y
            · have hbn : b.toNat = y.toNat := by omega
              rw [hbn, List.getElem?_set, if_pos rfl, if_pos hylen]
              by_cases hax : a = x
              · have han : a.toNat = x.toNat := by omega
                rw [if_pos ⟨hax, hby, hsome⟩]
                show (row.set x.toNat v)[a.toNat]? = some v
                rw [han, List.getElem?_set, if_pos rfl, if_pos hx]
              · have han : x.toNat ≠ a.toNat := by omega
                rw [if_neg (by tauto), R, hbn, hrow]
                show (row.set x.toNat v)[a.toNat]? =
                  (some row).bind (fun r => r[a.toNat]?)
                show (row.set x.toNat v)[a.toNat]? = row[a.toNat]?
                rw [List.getElem?_set, if_neg han]
            · have hbn : y.toNat ≠ b.toNat := by omega
              rw [List.getElem?_set, if_neg hbn, if_neg (by tauto), R]
          · have L : plan_get (plan.set y.toNat (row.set x.toNat v)) a b =
                none := by rw [plan_get, if_neg hab]
            have R : plan_get plan a b = none := by rw [plan_get, if_neg hab]
            rw [L, R]
            rw [if_neg ?_]
            rintro ⟨rfl, rfl, -⟩
            exact hab ⟨hxy.1, hxy.2⟩
        · rw [if_neg hx]
          have hnone : plan_get plan x y = none := by
            rw [hmain', List.getElem?_eq_none (by omega)]
          rw [hnone]
          simp
  · unfold plan_set
    rw [if_neg hxy]
    have hget : plan_get plan x y = none := by
      rw [plan_get, if_neg hxy]
    rw [hget]
    simp

/-- Out-of-bounds writes leave the plan unchanged. -/
theorem plan_set_oob {plan : List (List Char)} {x y : Int} {v : Char}
    (h : plan_get plan x y = none) : plan_set plan x y v = plan := by
  unfold plan_set
  by_cases hxy : 0 ≤ x ∧ 0 ≤ y
  · rw [if_pos hxy]
    cases hrow : plan[y.toNat]? with
    | none => rfl
    | some row =>
        dsimp only
        rw [plan_get, if_pos hxy, hrow] at h
        have h' : row[x.toNat]? = none := h
        have : ¬ x.toNat < row.length := by
          intro hlt
          rw [List.getElem?_eq_getElem hlt] at h'
          exact Option.noConfusion h'
        rw [if_neg this]
  · rw [if_neg hxy]

theorem bfsStep_of_empty {st : St} (h : st.q = []) : bfsStep st = st := by
  unfold bfsStep
  rw [h]

theorem runSteps_of_empty {st : St} (h : st.q = []) (n : Nat) :
    runSteps n st = st := by
  induction n with
  | zero => rfl
  | succ m ih => rw [runSteps, bfsStep_of_empty h, ih]

theorem isNone_plan_set (plan : List (List Char)) (x y a b : Int)
    (v : Char) :
    (plan_get (plan_set plan x y v) a b).isNone =
      (plan_get plan a b).isNone := by
  rw [plan_get_plan_set]
  split_ifs with h
  · obtain ⟨rfl, rfl, hs⟩ := h
    cases hg : plan_get plan a b with
    | none => rw [hg] at hs; exact absurd hs (by simp)
    | some ch => rfl
  · rfl

theorem mem_neighborsOpen {plan : List (List Char)} {p n : Int × Int} :
    n ∈ neighborsOpen plan p ↔
      n ∈ neighborsAll p ∧ isOpen plan n = true := by
  unfold neighborsOpen neighborsAll
  rw [List.mem_filterMap]
  constructor
  · rintro ⟨d, hd, hif⟩
    by_cases ho : isOpen plan (p.1 + d.1, p.2 + d.2) = true
    · rw [if_pos ho] at hif
      obtain rfl := Option.some.inj hif
      exact ⟨List.mem_map_of_mem _ hd, ho⟩
    · rw [if_neg ho] at hif
      exact Option.noConfusion hif
  · rintro ⟨hmem, ho⟩
    rw [List.mem_map] at hmem
    obtain ⟨d, hd, rfl⟩ := hmem
    exact ⟨d, hd, by rw [if_pos ho]⟩

theorem isOpen_isSome {plan : List (List Char)} {n : Int × Int}
    (h : isOpen plan n = true) : (plan_get plan n.1 n.2).isSome := by
  unfold isOpen at h
  cases hg : plan_get plan n.1 n.2 with
  | none => rw [hg] at h; exact Bool.noConfusion h
  | some ch => rfl

theorem sum_map_set (f : List Char → Nat) (l : List (List Char)) :
    ∀ (j : Nat) (r r0 : List Char), l[j]? = some r0 →
      ((l.set j r).map f).sum + f r0 = (l.map f).sum + f r := by
  induction l with
  | nil => intro j r r0 hj; simp at hj
  | cons hd tl ih =>
      intro j r r0 hj
      cases j with
      | zero =>
          obtain rfl : hd = r0 := by simpa using hj
          simp [List.set]
          omega
      | succ m =>
          have hm : tl[m]? = some r0 := by simpa using hj
          have := ih m r r0 hm
          simp only [List.set, List.map_cons, List.sum_cons]
          omega

theorem filter_set_visited (row : List Char) :
    ∀ (i : Nat) (ch : Char), row[i]? = some ch → ch ≠ VISITED →
      ((row.set i VISITED).filter (fun c => c ≠ VISITED)).length + 1 =
        (row.filter (fun c => c ≠ VISITED)).length := by
  induction row with
  | nil => intro i ch h _; simp at h
  | cons hd tl ih =>
      intro i ch h hne
      cases i with
      | zero =>
          obtain rfl : hd = ch := by simpa using h
          simp only [List.set, List.filter_cons]
          rw [if_neg (by simp), if_pos (by simpa using hne)]
          simp
      | succ m =>
          have h' : tl[m]? = some ch := by simpa using h
          have hrec := ih m ch h' hne
          simp only [List.set, List.filter_cons]
          split_ifs with hh
          · simp only [List.length_cons]
            omega
          · exact hrec

theorem unvisited_plan_set {plan : List (List Char)} {x y : Int} {ch : Char}
    (h : plan_get plan x y = some ch) (hne : ch ≠ VISITED) :
    unvisited (plan_set plan x y VISITED) + 1 = unvisited plan := by
  have hxy : 0 ≤ x ∧ 0 ≤ y := plan_get_nonneg h
  rw [plan_get, if_pos hxy] at h
  cases hrow : plan[y.toNat]? with
  | none => rw [hrow] at h; exact Option.noConfusion h
  | some row =>
      rw [hrow] at h
      have hx : x.toNat < row.length := by
        by_contra hc
        have : row[x.toNat]? = none := List.getElem?_eq_none (by omega)
        have h' : row[x.toNat]? = some ch := h
        rw [this] at h'
        exact Option.noConfusion h'
      have hy : y.toNat < plan.length := by
        by_contra hc
        rw [List.getElem?_eq_none (by omega)] at hrow
        exact Option.noConfusion hrow
      have hset : plan_set plan x y VISITED =
          plan.set y.toNat (row.set x.toNat VISITED) := by
        unfold plan_set
        rw [if_pos hxy, hrow]
        dsimp only
        rw [if_pos hx]
      rw [hset]
      unfold unvisited
      have hsum := sum_map_set
        (fun r => (r.filter (fun c => c ≠ VISITED)).length) plan y.toNat
        (row.set x.toNat VISITED) row hrow
      simp only [] at hsum
      have hfil := filter_set_visited row x.toNat ch h hne
      omega

theorem oobCount_plan_set (plan : List (List Char)) (x y : Int) (v : Char)
    (q : List (Int × Int)) :
    oobCount (plan_set plan x y v) q = oobCount plan q := by
  unfold oobCount
  congr 1
  apply List.filter_congr
  intro p _
  rw [isNone_plan_set]

theorem oobCount_append (plan : List (List Char)) (q r : List (Int × Int)) :
    oobCount plan (q ++ r) = oobCount plan q + oobCount plan r := by
  unfold oobCount
  rw [List.filter_append, List.length_append]

theorem oobCount_cons_inb {plan : List (List Char)} {p : Int × Int}
    (h : (plan_get plan p.1 p.2).isNone = false) (q : List (Int × Int)) :
    oobCount plan (p :: q) = oobCount plan q := by
  unfold oobCount
  rw [List.filter_cons, if_neg (by simp [h])]

theorem oobCount_cons_oob {plan : List (List Char)} {p : Int × Int}
    (h : (plan_get plan p.1 p.2).isNone = true) (q : List (Int × Int)) :
    oobCount plan (p :: q) = oobCount plan q + 1 := by
  unfold oobCount
  rw [List.filter_cons, if_pos (by simp [h])]
  simp [Nat.add_comm]

theorem oobCount_neighborsOpen (plan plan' : List (List Char))
    (p : Int × Int)
    (hcong : ∀ n : Int × Int, (plan_get plan n.1 n.2).isNone =
      (plan_get plan' n.1 n.2).isNone) :
    oobCount plan (neighborsOpen plan' p) = 0 := by
  unfold oobCount
  rw [List.length_eq_zero, List.filter_eq_nil_iff]
  intro n hn
  rw [mem_neighborsOpen] at hn
  have hsome := isOpen_isSome hn.2
  intro hc
  have hnone : plan_get plan' n.1 n.2 = none := by
    rw [← Option.isNone_iff_eq_none, ← hcong n]
    exact hc
  rw [hnone] at hsome
  exact Bool.noConfusion hsome

theorem length_neighborsOpen_le (plan : List (List Char)) (p : Int × Int) :
    (neighborsOpen plan p).length ≤ 4 := by
  have := List.length_filterMap_le
    (fun d => (if isOpen plan (p.1 + d.1, p.2 + d.2) then
      some ((p.1 + d.1, p.2 + d.2) : Int × Int) else none)) directions
  simpa [neighborsOpen] using this

/-- The fuel measure strictly decreases while the frontier is non-empty. -/
theorem bfsFuel_step_lt {st : St} (h : st.q ≠ []) :
    bfsFuel (bfsStep st).plan (bfsStep st).q < bfsFuel st.plan st.q := by
  obtain ⟨hd, rest, hq⟩ : ∃ hd rest, st.q = hd :: rest := by
    cases hst : st.q with
    | nil => exact absurd hst h
    | cons a l => exact ⟨a, l, rfl⟩
  by_cases hvis : plan_get st.plan hd.1 hd.2 = some VISITED
  · have hstep : bfsStep st = { st with q := rest } := by
      unfold bfsStep
      rw [hq]
      dsimp only
      rw [if_pos hvis]
    rw [hstep]
    unfold bfsFuel
    dsimp only
    have : oobCount st.plan (hd :: rest) = oobCount st.plan rest := by
      apply oobCount_cons_inb
      rw [hvis]; rfl
    rw [hq, this]
    simp [List.length_cons]
  · have hstep : bfsStep st =
        { plan := plan_set st.plan hd.1 hd.2 VISITED,
          q := rest ++ neighborsOpen (plan_set st.plan hd.1 hd.2 VISITED) hd,
          chairs := match plan_get st.plan hd.1 hd.2 with
            | some ch => if ch ∈ CHAIR_TYPES then st.chairs.incr ch
                         else st.chairs
            | none => st.chairs,
          trace := st.trace ++ [hd],
          enqLog := st.enqLog ++
            neighborsOpen (plan_set st.plan hd.1 hd.2 VISITED) hd } := by
      unfold bfsStep
      rw [hq]
      dsimp only
      rw [if_neg hvis]
    rw [hstep]
    unfold bfsFuel
    dsimp only
    set plan' := plan_set st.plan hd.1 hd.2 VISITED with hplan'
    set ns := neighborsOpen plan' hd with hns
    have hcong : ∀ n : Int × Int, (plan_get plan' n.1 n.2).isNone =
        (plan_get st.plan n.1 n.2).isNone := by
      intro n; rw [hplan', isNone_plan_set]
    have hoob_ns : oobCount plan' ns = 0 :=
      oobCount_neighborsOpen plan' plan' hd (fun _ => rfl)
    have hoob_app : oobCount plan' (rest ++ ns) = oobCount plan' rest := by
      rw [oobCount_append, hoob_ns]
      omega
    have hoob_rest : oobCount plan' rest = oobCount st.plan rest := by
      unfold oobCount
      congr 1
      exact List.filter_congr (fun p _ => by rw [hcong p])
    have hlen_ns : ns.length ≤ 4 := length_neighborsOpen_le plan' hd
    have hlen : (rest ++ ns).length ≤ rest.length + 4 := by
      rw [List.length_append]; omega
    cases hcell : plan_get st.plan hd.1 hd.2 with
    | some ch =>
        have hne : ch ≠ VISITED := fun hc => hvis (by rw [hcell, hc])
        have hunv : unvisited plan' + 1 = unvisited st.plan :=
          unvisited_plan_set hcell hne
        have hoob_hd : oobCount st.plan (hd :: rest) =
            oobCount st.plan rest := by
          apply oobCount_cons_inb
          rw [hcell]; rfl
        rw [hq, hoob_app, hoob_rest, hoob_hd]
        simp only [List.length_cons]
        omega
    | none =>
        have hplan_id : plan' = st.plan := by
          rw [hplan']; exact plan_set_oob hcell
        have hunv : unvisited plan' = unvisited st.plan := by rw [hplan_id]
        have hoob_hd : oobCount st.plan (hd :: rest) =
            oobCount st.plan rest + 1 := by
          apply oobCount_cons_oob
          rw [hcell]; rfl
        rw [hq, hoob_app, hoob_rest, hoob_hd]
        simp only [List.length_cons]
        omega

theorem bfsFuel_ge_len (plan : List (List Char)) (q : List (Int × Int)) :
    q.length ≤ bfsFuel plan q := by
  unfold bfsFuel
  omega

/-- Enough fuel drains the frontier. -/
theorem runSteps_drains : ∀ (n : Nat) (st : St),
    bfsFuel st.plan st.q ≤ n → (runSteps n st).q = [] := by
  intro n
  induction n using Nat.strong_induction_on with
  | _ n ih =>
      intro st hfuel
      by_cases hq : st.q = []
      · rw [runSteps_of_empty hq]; exact hq
      · have hlen : 1 ≤ st.q.length := by
          cases hst : st.q with
          | nil => exact absurd hst hq
          | cons a l => simp
        have hge := bfsFuel_ge_len st.plan st.q
        cases n with
        | zero => omega
        | succ m =>
            rw [runSteps]
            have hlt := bfsFuel_step_lt hq
            exact ih m (by omega) (bfsStep st) (by omega)

/-- The frontier of the completed `find_chairs` run is empty. -/
theorem find_chairs_run_drained (plan : List (List Char)) (room : Room) :
    (find_chairs_run plan room).q = [] :=
  runSteps_drains _ _ (le_refl _)

theorem runSteps_add (a b : Nat) (st : St) :
    runSteps (a + b) st = runSteps b (runSteps a st) := by
  induction a generalizing st with
  | zero => rw [Nat.zero_add]; rfl
  | succ m ih =>
      have : m + 1 + b = (m + b) + 1 := by omega
      rw [this, runSteps, runSteps, ih]

/-- Adequacy of the fuel: any run at least as long as the chosen fuel ends
in exactly the drained state, so `find_chairs_run` is the fixpoint the
unbounded `while q` loop of the source reaches. -/
theorem find_chairs_run_stable (plan : List (List Char)) (room : Room) :
    ∀ n : Nat, bfsFuel plan [(room.x, room.y)] ≤ n →
      runSteps n (initSt plan room) = find_chairs_run plan room := by
  intro n hn
  obtain ⟨d, hd⟩ : ∃ d, n = bfsFuel plan [(room.x, room.y)] + d :=
    ⟨n - bfsFuel plan [(room.x, room.y)], by omega⟩
  rw [hd, runSteps_add]
  exact runSteps_of_empty (find_chairs_run_drained plan room) d

theorem countOrig_append_single (P : List (List Char)) (t : Char)
    (tr : List (Int × Int)) (p : Int × Int) :
    countOrig P t (tr ++ [p]) =
      countOrig P t tr +
        (if plan_get P p.1 p.2 = some t then 1 else 0) := by
  unfold countOrig
  rw [List.filter_append, List.length_append]
  by_cases h : plan_get P p.1 p.2 = some t
  · rw [if_pos h]
    simp [h]
  · rw [if_neg h]
    simp [h]

theorem Chairs_get_incr (ch : Chairs) {c : Char}
    (hc : c ∈ CHAIR_TYPES) (t : Char) :
    (ch.incr c).get t = ch.get t + (if t = c then 1 else 0) := by
  have : c = 'W' ∨ c = 'P' ∨ c = 'S' ∨ c = 'C' := by
    simpa [CHAIR_TYPES] using hc
  rcases this with rfl | rfl | rfl | rfl <;>
    · simp only [Chairs.incr, Chairs.get]
      split_ifs <;> simp_all

theorem BfsInv_isSome {P : List (List Char)} {s0 : Int × Int}
    {ch0 : Chairs} {st : St} (inv : BfsInv P s0 ch0 st) (a b : Int) :
    (plan_get st.plan a b).isSome = (plan_get P a b).isSome := by
  rw [inv.planEq a b]
  split_ifs with h
  · exact h.2.symm
  · rfl

theorem BfsInv_init (P : List (List Char)) (s0 : Int × Int)
    (ch0 : Chairs) : BfsInv P s0 ch0 ⟨P, [s0], ch0, [], []⟩ := by
  constructor
  · intro a b
    rw [if_neg (by simp)]
  · exact List.nodup_nil
  · intro p hp; simp at hp
  · intro p hp
    right
    simpa using hp
  · intro p hp; simp at hp
  · intro _
    right
    simp
  · intro p _
    by_cases hps : p = s0
    · subst hps; simp
    · rw [if_neg hps]
      simp [List.count_cons, hps]
  · intro t _
    simp [countOrig]

theorem BfsInv_step {P : List (List Char)} {s0 : Int × Int} {ch0 : Chairs}
    {st : St} (inv : BfsInv P s0 ch0 st) :
    BfsInv P s0 ch0 (bfsStep st) := by
  cases hq : st.q with
  | nil => rw [bfsStep_of_empty hq]; exact inv
  | cons hd rest =>
    have hhdq : hd ∈ st.q := by rw [hq]; exact List.mem_cons_self _ _
    by_cases hvis : plan_get st.plan hd.1 hd.2 = some VISITED
    · -- visited head: dropped without processing
      have hstep : bfsStep st = { st with q := rest } := by
        unfold bfsStep
        rw [hq]
        dsimp only
        rw [if_pos hvis]
      rw [hstep]
      -- the head either was processed earlier or was originally the sentinel
      have hd_cases : hd ∈ st.trace ∨ plan_get P hd.1 hd.2 = some VISITED := by
        rw [inv.planEq hd.1 hd.2] at hvis
        by_cases hc : (hd.1, hd.2) ∈ st.trace ∧
            (plan_get P hd.1 hd.2).isSome = true
        · left; exact hc.1
        · right; rw [if_neg hc] at hvis; exact hvis
      refine ⟨inv.planEq, inv.traceND, inv.traceReach, ?_, ?_, ?_, ?_,
        inv.chairsEq⟩
      · intro p hp
        exact inv.queueReach p (by rw [hq]; exact List.mem_cons_of_mem _ hp)
      · intro p hp n hn ho
        rcases inv.frontier p hp n hn ho with h | h
        · left; exact h
        · rw [hq] at h
          rcases List.mem_cons.mp h with rfl | h
          · rcases hd_cases with h' | h'
            · left; exact h'
            · exfalso
              unfold isOpen at ho
              rw [h'] at ho
              simp [VISITED] at ho
          · right; exact h
      · intro hne
        rcases inv.startCov hne with h | h
        · left; exact h
        · rw [hq] at h
          rcases List.mem_cons.mp h with rfl | h
          · rcases hd_cases with h' | h'
            · left; exact h'
            · exact absurd h' hne
          · right; exact h
      · intro p hp
        have := inv.oobBound p hp
        rw [hq] at this
        have hhd_some : (plan_get P hd.1 hd.2).isSome = true := by
          rw [← BfsInv_isSome inv, hvis]; rfl
        have hpne : p ≠ hd := by
          intro hc
          subst hc
          rw [Option.isNone_iff_eq_none] at hp
          rw [hp] at hhd_some
          exact Bool.noConfusion hhd_some
        rw [List.count_cons_of_ne hpne] at this
        exact this
    · -- unvisited head: processed
      have hstep : bfsStep st =
          { plan := plan_set st.plan hd.1 hd.2 VISITED,
            q := rest ++
              neighborsOpen (plan_set st.plan hd.1 hd.2 VISITED) hd,
            chairs := match plan_get st.plan hd.1 hd.2 with
              | some ch => if ch ∈ CHAIR_TYPES then st.chairs.incr ch
                           else st.chairs
              | none => st.chairs,
            trace := st.trace ++ [hd],
            enqLog := st.enqLog ++
              neighborsOpen (plan_set st.plan hd.1 hd.2 VISITED) hd } := by
        unfold bfsStep
        rw [hq]
        dsimp only
        rw [if_neg hvis]
      -- the head has not been processed before
      have hd_fresh : hd ∉ st.trace := by
        intro hmem
        by_cases hs : (plan_get P hd.1 hd.2).isSome = true
        · have := inv.planEq hd.1 hd.2
          rw [if_pos ⟨hmem, hs⟩] at this
          exact hvis this
        · have hnone : (plan_get P hd.1 hd.2).isNone = true := by
            cases hg : plan_get P hd.1 hd.2 with
            | none => rfl
            | some ch => rw [hg] at hs; exact absurd rfl hs
          have hbound := inv.oobBound hd hnone
          have h1 : 1 ≤ st.q.count hd := by
            rw [hq]
            rw [List.count_cons_self]
            omega
          have h2 : 1 ≤ st.trace.count hd := List.one_le_count_iff.mpr hmem
          split_ifs at hbound <;> omega
      -- the current cell holds its original character
      have hcell : plan_get st.plan hd.1 hd.2 = plan_get P hd.1 hd.2 := by
        rw [inv.planEq hd.1 hd.2, if_neg (by intro hc; exact hd_fresh hc.1)]
      -- the head is reachable
      have hreach : reaches P s0 hd := by
        rcases inv.queueReach hd hhdq with h | h
        · exact h
        · subst h
          exact reaches.start (by rw [← hcell]; exact hvis)
      rw [hstep]
      set plan' := plan_set st.plan hd.1 hd.2 VISITED with hplan'
      set ns := neighborsOpen plan' hd with hns
      -- the updated plan, pointwise
      have planEq' : ∀ a b : Int, plan_get plan' a b =
          if (a, b) ∈ st.trace ++ [hd] ∧ (plan_get P a b).isSome = true
          then some VISITED else plan_get P a b := by
        intro a b
        rw [hplan', plan_get_plan_set]
        by_cases hab : (a, b) = hd
        · have ha : a = hd.1 := by rw [← hab]
          have hb : b = hd.2 := by rw [← hab]
          subst ha; subst hb
          rw [BfsInv_isSome inv]
          by_cases hs : (plan_get P hd.1 hd.2).isSome = true
          · rw [if_pos ⟨rfl, rfl, hs⟩, if_pos ⟨by simp, hs⟩]
          · rw [if_neg (by tauto), if_neg (by tauto), hcell]
        · have hne1 : ¬(a = hd.1 ∧ b = hd.2 ∧
              (plan_get st.plan hd.1 hd.2).isSome = true) := by
            intro hc
            exact hab (by rw [Prod.ext_iff]; exact ⟨hc.1, hc.2.1⟩)
          rw [if_neg hne1, inv.planEq a b]
          have hmem_eq : ((a, b) ∈ st.trace ++ [hd]) ↔ (a, b) ∈ st.trace := by
            rw [List.mem_append]
            simp only [List.mem_singleton]
            constructor
            · rintro (h | h)
              · exact h
              · exact absurd h hab
            · intro h; left; exact h
          by_cases hcnd : (a, b) ∈ st.trace ∧ (plan_get P a b).isSome = true
          · rw [if_pos hcnd, if_pos ⟨hmem_eq.mpr hcnd.1, hcnd.2⟩]
          · rw [if_neg hcnd, if_neg (fun hc => hcnd ⟨hmem_eq.mp hc.1, hc.2⟩)]
      -- members of `ns` are open in the original plan
      have ns_open : ∀ n ∈ ns, n ∈ neighborsAll hd ∧ isOpen P n = true := by
        intro n hn
        rw [hns, mem_neighborsOpen] at hn
        refine ⟨hn.1, ?_⟩
        have ho := hn.2
        unfold isOpen at ho ⊢
        rw [planEq' n.1 n.2] at ho
        split_ifs at ho with hc
        · simp [VISITED] at ho
        · exact ho
      constructor
      · exact planEq'
      · -- nodup
        dsimp only
        rw [List.nodup_append]
        exact ⟨inv.traceND, List.nodup_singleton _,
          fun a ha hb => hd_fresh (by rwa [List.mem_singleton.mp hb] at ha)⟩
      · -- trace reach
        intro p hp
        rcases List.mem_append.mp hp with h | h
        · exact inv.traceReach p h
        · rw [List.mem_singleton.mp h]
          exact hreach
      · -- queue reach
        intro p hp
        rcases List.mem_append.mp hp with h | h
        · exact inv.queueReach p (by rw [hq]; exact List.mem_cons_of_mem _ h)
        · left
          obtain ⟨hadj, hop⟩ := ns_open p h
          exact reaches.step hd p hreach hadj hop
      · -- frontier
        intro p hp n hn ho
        dsimp only at hp ⊢
        rcases List.mem_append.mp hp with h | h
        · rcases inv.frontier p h n hn ho with h' | h'
          · left; exact List.mem_append_left _ h'
          · rw [hq] at h'
            rcases List.mem_cons.mp h' with rfl | h'
            · left; exact List.mem_append_right _ (by simp)
            · right; exact List.mem_append_left _ h'
        · have hpe : p = hd := List.mem_singleton.mp h
          rw [hpe] at hn
          by_cases hmem : n ∈ st.trace ++ [hd]
          · left; exact hmem
          · right
            apply List.mem_append_right
            rw [hns, mem_neighborsOpen]
            refine ⟨hn, ?_⟩
            unfold isOpen at ho ⊢
            rw [planEq' n.1 n.2, if_neg (by intro hc; exact hmem hc.1)]
            exact ho
      · -- start coverage
        intro hne
        rcases inv.startCov hne with h | h
        · left; exact List.mem_append_left _ h
        · rw [hq] at h
          rcases List.mem_cons.mp h with rfl | h
          · left; exact List.mem_append_right _ (by simp)
          · right; exact List.mem_append_left _ h
      · -- out-of-bounds multiplicity
        intro p hp
        have hold := inv.oobBound p hp
        rw [hq] at hold
        have hcount_ns : ns.count p = 0 := by
          apply List.count_eq_zero_of_not_mem
          intro hmem
          obtain ⟨_, hop⟩ := ns_open p hmem
          have := isOpen_isSome hop
          rw [Option.isNone_iff_eq_none] at hp
          rw [hp] at this
          exact Bool.noConfusion this
        dsimp only
        rw [List.count_append, List.count_append, hcount_ns]
        by_cases hph : p = hd
        · subst hph
          rw [List.count_cons_self] at hold
          have h2 : ([p] : List (Int × Int)).count p = 1 := by simp
          rw [h2]
          omega
        · rw [List.count_cons_of_ne hph] at hold
          have h2 : ([hd] : List (Int × Int)).count p = 0 :=
            List.count_eq_zero_of_not_mem (by simp [hph])
          rw [h2]
          omega
      · -- tally bookkeeping
        intro t ht
        dsimp only
        rw [countOrig_append_single]
        have hold := inv.chairsEq t ht
        cases hc : plan_get P hd.1 hd.2 with
        | none =>
            rw [hcell, hc]
            rw [if_neg (by intro hcc; exact Option.noConfusion hcc)]
            dsimp only
            omega
        | some ch =>
            rw [hcell, hc]
            dsimp only
            by_cases hch : ch ∈ CHAIR_TYPES
            · rw [if_pos hch, Chairs_get_incr st.chairs hch t, hold]
              by_cases hteq : t = ch
              · subst hteq
                rw [if_pos rfl, if_pos rfl]
                omega
              · rw [if_neg hteq,
                  if_neg (by intro hcc; exact hteq (Option.some.inj hcc).symm)]
                omega
            · rw [if_neg hch, hold,
                if_neg (by intro hcc; exact hch (by rw [Option.some.inj hcc]; exact ht))]
              omega

theorem BfsInv_runSteps {P : List (List Char)} {s0 : Int × Int}
    {ch0 : Chairs} (n : Nat) {st : St} (inv : BfsInv P s0 ch0 st) :
    BfsInv P s0 ch0 (runSteps n st) := by
  induction n generalizing st with
  | zero => exact inv
  | succ m ih => exact ih (BfsInv_step inv)

theorem reaches_sub_trace {P : List (List Char)} {s0 : Int × Int}
    {ch0 : Chairs} {st : St} (inv : BfsInv P s0 ch0 st)
    (hq : st.q = []) : ∀ p, reaches P s0 p → p ∈ st.trace := by
  intro p hp
  induction hp with
  | start hne =>
      rcases inv.startCov hne with h | h
      · exact h
      · rw [hq] at h; exact absurd h (List.not_mem_nil _)
  | step p' n _ hadj hop ih =>
      rcases inv.frontier p' ih n hadj hop with h | h
      · exact h
      · rw [hq] at h; exact absurd h (List.not_mem_nil _)

/-- The completed run of `find_chairs` satisfies the invariant. -/
theorem find_chairs_inv (plan : List (List Char)) (room : Room) :
    BfsInv plan (room.x, room.y) room.chairs (find_chairs_run plan room) :=
  BfsInv_runSteps _ (BfsInv_init plan (room.x, room.y) room.chairs)

/-- The cells processed by the fill are exactly the reachable ones. -/
theorem find_chairs_trace_iff (plan : List (List Char)) (room : Room)
    (p : Int × Int) :
    p ∈ (find_chairs_run plan room).trace ↔
      reaches plan (room.x, room.y) p := by
  constructor
  · exact (find_chairs_inv plan room).traceReach p
  · exact reaches_sub_trace (find_chairs_inv plan room)
      (find_chairs_run_drained plan room) p

/-- Each cell is processed at most once. -/
theorem find_chairs_trace_nodup (plan : List (List Char)) (room : Room) :
    (find_chairs_run plan room).trace.Nodup :=
  (find_chairs_inv plan room).traceND

/-- The final tally of the fill, per chair category. -/
theorem find_chairs_count (plan : List (List Char)) (room : Room) :
    ∀ t ∈ CHAIR_TYPES,
      (find_chairs plan room).2.chairs.get t =
        room.chairs.get t +
          countOrig plan t (find_chairs_run plan room).trace := by
  intro t ht
  exact (find_chairs_inv plan room).chairsEq t ht

theorem MarkedOn_congr {P G : List (List Char)} {S T : Int × Int → Prop}
    (h : ∀ p, S p ↔ T p) (hm : MarkedOn P S G) : MarkedOn P T G := by
  intro p
  exact ⟨fun hp => (hm p).1 ((h p).mpr hp),
    fun hp => (hm p).2 (fun hs => hp ((h p).mp hs))⟩

/-- The plan left by one completed fill is the original plan marked on
the reachable set. -/
theorem find_chairs_marked (plan : List (List Char)) (room : Room) :
    MarkedOn plan (reaches plan (room.x, room.y))
      (find_chairs plan room).1 := by
  intro p
  have hplanEq := (find_chairs_inv plan room).planEq p.1 p.2
  constructor
  · intro hp
    rw [← find_chairs_trace_iff plan room p] at hp
    show plan_get (find_chairs_run plan room).plan p.1 p.2 = _
    rw [hplanEq]
    cases hg : plan_get plan p.1 p.2 with
    | none =>
        rw [if_neg (fun hc => Bool.noConfusion hc.2)]
        rfl
    | some ch =>
        rw [if_pos ⟨hp, rfl⟩]
        rfl
  · intro hp
    rw [← find_chairs_trace_iff plan room p] at hp
    show plan_get (find_chairs_run plan room).plan p.1 p.2 = _
    rw [hplanEq, if_neg (fun hc => hp hc.1)]

theorem isOpen_of_marked {P G : List (List Char)} {S : Int × Int → Prop}
    (hm : MarkedOn P S G) {q : Int × Int} (h : isOpen G q = true) :
    isOpen P q = true ∧ ¬ S q := by
  have hns : ¬ S q := by
    intro hq
    have := (hm q).1 hq
    unfold isOpen at h
    cases hg : plan_get P q.1 q.2 with
    | none => rw [hg] at this; rw [this] at h; exact Bool.noConfusion h
    | some ch =>
        rw [hg] at this
        rw [this] at h
        simp [VISITED] at h
  have heq := (hm q).2 hns
  refine ⟨?_, hns⟩
  unfold isOpen at h ⊢
  rw [heq] at h
  exact h

/-- Marking only shrinks reachability. -/
theorem reaches_of_marked {P G : List (List Char)} {S : Int × Int → Prop}
    (hm : MarkedOn P S G) {s p : Int × Int} (h : reaches G s p) :
    reaches P s p := by
  induction h with
  | start hne =>
      apply reaches.start
      by_cases hs : S s
      · have hmark := (hm s).1 hs
        cases hg : plan_get P s.1 s.2 with
        | none => intro hc; exact Option.noConfusion hc
        | some ch =>
            exact absurd
              (show plan_get G s.1 s.2 = some VISITED by
                rw [hmark, hg]; rfl) hne
      · rw [← (hm s).2 hs]
        exact hne
  | step p' n _ hadj hop ih =>
      exact reaches.step p' n ih hadj (isOpen_of_marked hm hop).1

/-- Cells reachable in the unmarked plan are either already marked or
still reachable in the marked plan. -/
theorem reaches_cover {P G : List (List Char)} {S : Int × Int → Prop}
    (hm : MarkedOn P S G) (hcl : SClosed P S) {s p : Int × Int}
    (h : reaches P s p) : S p ∨ reaches G s p := by
  induction h with
  | start hne =>
      by_cases hs : S s
      · left; exact hs
      · right
        apply reaches.start
        rw [(hm s).2 hs]
        exact hne
  | step p' n hp' hadj hop ih =>
      rcases ih with h | h
      · left; exact hcl p' n h hadj hop
      · by_cases hn : S n
        · left; exact hn
        · right
          apply reaches.step p' n h hadj
          rw [isOpen, (hm n).2 hn]
          rw [isOpen] at hop
          exact hop

theorem MarkedOn_trans {P G G' : List (List Char)}
    {S T : Int × Int → Prop} (h1 : MarkedOn P S G) (h2 : MarkedOn G T G') :
    MarkedOn P (fun p => S p ∨ T p) G' := by
  intro p
  constructor
  · rintro (hs | ht)
    · by_cases ht : T p
      · rw [(h2 p).1 ht, (h1 p).1 hs, Option.map_map]
        rfl
      · rw [(h2 p).2 ht, (h1 p).1 hs]
    · rw [(h2 p).1 ht]
      by_cases hs : S p
      · rw [(h1 p).1 hs, Option.map_map]
        rfl
      · rw [(h1 p).2 hs]
  · intro hn
    rw [not_or] at hn
    rw [(h2 p).2 hn.2, (h1 p).2 hn.1]

theorem reaches_SClosed (P : List (List Char)) (s : Int × Int) :
    SClosed P (reaches P s) :=
  fun p q hp hadj hop => reaches.step p q hp hadj hop

theorem unionReach_SClosed (P : List (List Char)) (rooms : List Room) :
    SClosed P (unionReach P rooms) := by
  rintro p q ⟨r, hr, hp⟩ hadj hop
  exact ⟨r, hr, reaches.step p q hp hadj hop⟩

theorem fill_all_marked (P : List (List Char)) :
    ∀ (rooms : List Room) (G : List (List Char)) (S : Int × Int → Prop),
      MarkedOn P S G → SClosed P S →
      MarkedOn P (fun p => S p ∨ unionReach P rooms p)
        (fill_all G rooms) := by
  intro rooms
  induction rooms with
  | nil =>
      intro G S hm _
      apply MarkedOn_congr (T := fun p => S p ∨ unionReach P [] p) _ hm
      intro p
      constructor
      · intro h; left; exact h
      · rintro (h | ⟨r, hr, _⟩)
        · exact h
        · exact absurd hr (List.not_mem_nil _)
  | cons r rs ih =>
      intro G S hm hcl
      have hfill : fill_all G (r :: rs) =
          fill_all (find_chairs G r).1 rs := rfl
      rw [hfill]
      have m1 : MarkedOn G (reaches G (r.x, r.y)) (find_chairs G r).1 :=
        find_chairs_marked G r
      have m2 : MarkedOn P (fun p => S p ∨ reaches G (r.x, r.y) p)
          (find_chairs G r).1 := MarkedOn_trans hm m1
      have m3 : MarkedOn P (fun p => S p ∨ reaches P (r.x, r.y) p)
          (find_chairs G r).1 := by
        apply MarkedOn_congr _ m2
        intro p
        constructor
        · rintro (h | h)
          · left; exact h
          · right; exact reaches_of_marked hm h
        · rintro (h | h)
          · left; exact h
          · rcases reaches_cover hm hcl h with h' | h'
            · left; exact h'
            · right; exact h'
      have hcl3 : SClosed P (fun p => S p ∨ reaches P (r.x, r.y) p) := by
        rintro p q (hp | hp) hadj hop
        · left; exact hcl p q hp hadj hop
        · right; exact reaches.step p q hp hadj hop
      have := ih (find_chairs G r).1 _ m3 hcl3
      apply MarkedOn_congr _ this
      intro p
      constructor
      · rintro ((h | h) | h)
        · left; exact h
        · right; exact ⟨r, List.mem_cons_self _ _, h⟩
        · right
          obtain ⟨r', hr', hp'⟩ := h
          exact ⟨r', List.mem_cons_of_mem _ hr', hp'⟩
      · rintro (h | ⟨r', hr', hp'⟩)
        · left; left; exact h
        · rcases List.mem_cons.mp hr' with rfl | hmem
          · left; right; exact hp'
          · right; exact ⟨r', hmem, hp'⟩

/-- The grid after filling every room is the original grid marked on the
union of the rooms' reachable sets. -/
theorem fill_all_markedOn (P : List (List Char)) (rooms : List Room) :
    MarkedOn P (unionReach P rooms) (fill_all P rooms) := by
  have base : MarkedOn P (fun _ => False) P := by
    intro p
    exact ⟨fun h => absurd h not_false, fun _ => rfl⟩
  have hcl : SClosed P (fun _ => False) := by
    rintro p q h
    exact absurd h not_false
  have := fill_all_marked P rooms P _ base hcl
  apply MarkedOn_congr _ this
  intro p
  constructor
  · rintro (h | h)
    · exact absurd h not_false
    · exact h
  · intro h; right; exact h

theorem reaches_isSome {P : List (List Char)} {s p : Int × Int}
    (hs : isOpen P s = true) (h : reaches P s p) :
    (plan_get P p.1 p.2).isSome = true := by
  induction h with
  | start _ => exact isOpen_isSome hs
  | step p' n _ _ hop _ => exact isOpen_isSome hop

theorem reaches_isOpen {P : List (List Char)} {s p : Int × Int}
    (hs : isOpen P s = true) (h : reaches P s p) :
    isOpen P p = true := by
  induction h with
  | start _ => exact hs
  | step p' n _ _ hop _ => exact hop

theorem firstIdxFrom_none {f : Char → Bool} {ln : List Char} {i : Nat}
    (h : firstIdxFrom f ln i = none) :
    ∀ k, i ≤ k → ∀ ch, ln[k]? = some ch → f ch = false := by
  unfold firstIdxFrom at h
  rw [Option.map_eq_none'] at h
  rw [List.findIdx?_eq_none_iff] at h
  intro k hik ch hch
  have hdp : (ln.drop i)[k - i]? = some ch := by
    rw [List.getElem?_drop, Nat.add_sub_cancel' hik]
    exact hch
  obtain ⟨hlt, rfl⟩ := List.getElem?_eq_some_iff.mp hdp
  exact h _ (List.getElem_mem hlt)

theorem firstIdxFrom_some {f : Char → Bool} {ln : List Char} {i j : Nat}
    (h : firstIdxFrom f ln i = some j) :
    i ≤ j ∧ (∃ ch, ln[j]? = some ch ∧ f ch = true) ∧
      ∀ k, i ≤ k → k < j → ∀ ch, ln[k]? = some ch → f ch = false := by
  unfold firstIdxFrom at h
  cases hfi : (ln.drop i).findIdx? f with
  | none => rw [hfi] at h; exact Option.noConfusion h
  | some m =>
      rw [hfi] at h
      obtain rfl : i + m = j := by simpa using h
      rw [List.findIdx?_eq_some_iff_findIdx_eq] at hfi
      obtain ⟨hmlen, hfind⟩ := hfi
      refine ⟨Nat.le_add_right i m, ⟨(ln.drop i)[m], ?_, ?_⟩, ?_⟩
      · rw [← List.getElem?_drop]
        exact List.getElem?_eq_getElem hmlen
      · have hw : List.findIdx f (ln.drop i) < (ln.drop i).length := by
          rw [hfind]; exact hmlen
        have hval := List.findIdx_getElem (w := hw)
        simp only [hfind] at hval
        exact hval
      · intro k hik hkj ch hch
        have hki : k - i < m := by omega
        have hdp : (ln.drop i)[k - i]? = some ch := by
          rw [List.getElem?_drop, Nat.add_sub_cancel' hik]
          exact hch
        obtain ⟨hlt, hel⟩ := List.getElem?_eq_some_iff.mp hdp
        have := @List.not_of_lt_findIdx _ f (ln.drop i) (k - i)
          (by rw [hfind]; exact hki)
        rw [hel] at this
        exact this

theorem matchesFrom_spec (ln : List Char) :
    ∀ (fuel i : Nat), ln.length + 1 ≤ fuel + i →
      MatchSpec ln i (matchesFrom ln fuel i) := by
  intro fuel
  induction fuel with
  | zero =>
      intro i hfi
      apply MatchSpec.nil
      intro p q cp cq hip hpq hp _ _
      have : p < ln.length := (List.getElem?_eq_some_iff.mp hp).1
      omega
  | succ fuel ih =>
      intro i hfi
      rw [matchesFrom]
      cases hA : firstIdxFrom (fun ch => ch == '(') ln i with
      | none =>
          apply MatchSpec.nil
          intro p q cp cq hip hpq hp hq hcp
          have := firstIdxFrom_none hA p hip cp hp
          rw [hcp] at this
          exact absurd this (by simp)
      | some a =>
          dsimp only
          obtain ⟨hia, ⟨cha, hcha, hfa⟩, hafirst⟩ := firstIdxFrom_some hA
          obtain rfl : cha = '(' := by simpa using hfa
          cases hB : firstIdxFrom (fun ch => ch == ')') ln (a + 1) with
          | none =>
              apply MatchSpec.nil
              intro p q cp cq hip hpq hp hq hcp hcq
              subst hcp
              subst hcq
              have hpa : a ≤ p := by
                by_contra hc
                exact absurd (hafirst p hip (by omega) '(' hp) (by simp)
              have := firstIdxFrom_none hB q (by omega) ')' hq
              simp at this
          | some b =>
              dsimp only
              obtain ⟨hab, ⟨chb, hchb, hfb⟩, hbfirst⟩ := firstIdxFrom_some hB
              obtain rfl : chb = ')' := by simpa using hfb
              have hblen : b < ln.length :=
                (List.getElem?_eq_some_iff.mp hchb).1
              apply MatchSpec.cons
              · exact hia
              · exact hcha
              · intro k ch hik hka hch hchp
                subst hchp
                exact absurd (hafirst k hik hka '(' hch) (by simp)
              · omega
              · exact hchb
              · intro k ch hak hkb hch hchp
                subst hchp
                exact absurd (hbfirst k (by omega) hkb ')' hch) (by simp)
              · exact ih (b + 1) (by omega)

/-- All matches of a row satisfy the scanner specification. -/
theorem lineMatches_spec (ln : List Char) :
    MatchSpec ln 0 (lineMatches ln) :=
  matchesFrom_spec ln (ln.length + 1) 0 (by omega)

/-- Structural bounds of every reported span. -/
theorem MatchSpec_bounds {ln : List Char} :
    ∀ {i : Nat} {ms : List (Nat × Nat)}, MatchSpec ln i ms →
      ∀ m ∈ ms, i ≤ m.1 ∧ m.1 + 2 ≤ m.2 ∧ m.2 ≤ ln.length ∧
        ln[m.1]? = some '(' ∧ ln[m.2 - 1]? = some ')' := by
  intro i ms h
  induction h with
  | nil i hno => intro m hm; exact absurd hm (List.not_mem_nil m)
  | cons i a b ms hia hpa hfirst hab hpb hnorp hrec ih =>
      intro m hm
      rcases List.mem_cons.mp hm with rfl | hm
      · have hblen : b < ln.length := (List.getElem?_eq_some_iff.mp hpb).1
        refine ⟨hia, by omega, by omega, hpa, ?_⟩
        have : b + 1 - 1 = b := by omega
        rw [this]
        exact hpb
      · have := ih m hm
        exact ⟨by omega, this.2.1, this.2.2⟩

theorem covered_cons_false {m : Nat × Nat} {ms : List (Nat × Nat)}
    {j : Nat} :
    covered (m :: ms) j = false ↔
      (j < m.1 ∨ m.2 ≤ j) ∧ covered ms j = false := by
  rw [covered, Bool.or_eq_false_iff, Bool.and_eq_false_iff]
  constructor
  · rintro ⟨h1, h2⟩
    refine ⟨?_, h2⟩
    rcases h1 with h | h
    · left
      have := of_decide_eq_false h
      omega
    · right
      have := of_decide_eq_false h
      omega
  · rintro ⟨h1, h2⟩
    refine ⟨?_, h2⟩
    rcases h1 with h | h
    · left; exact decide_eq_false (by omega)
    · right; exact decide_eq_false (by omega)

theorem covered_nil (j : Nat) : covered [] j = false := rfl

/-- In the original line, an uncovered `(` is never followed by an
uncovered `)`. -/
theorem MatchSpec_nopair {ln : List Char} :
    ∀ {i : Nat} {ms : List (Nat × Nat)}, MatchSpec ln i ms →
      ∀ p q, i ≤ p → p < q → ln[p]? = some '(' → ln[q]? = some ')' →
        covered ms p = false → covered ms q = false → False := by
  intro i ms h
  induction h with
  | nil i hno =>
      intro p q hip hpq hp hq _ _
      exact hno p q '(' ')' hip hpq hp hq rfl rfl
  | cons i a b ms hia hpa hfirst hab hpb hnorp hrec ih =>
      intro p q hip hpq hp hq hcp hcq
      obtain ⟨hp1, hcp'⟩ := covered_cons_false.mp hcp
      obtain ⟨hq1, hcq'⟩ := covered_cons_false.mp hcq
      have hpa' : a ≤ p := by
        by_contra hc
        exact hfirst p '(' hip (by omega) hp rfl
      have hpb' : b + 1 ≤ p := by
        rcases hp1 with h | h
        · omega
        · exact h
      exact ih p q (by omega) hpq hp hq hcp' hcq'

theorem covered_append_single (done : List (Nat × Nat)) (m : Nat × Nat)
    (j : Nat) :
    covered (done ++ [m]) j = true ↔
      covered done j = true ∨ (m.1 ≤ j ∧ j < m.2) := by
  induction done with
  | nil =>
      simp only [List.nil_append, covered, Bool.or_false,
        Bool.and_eq_true, decide_eq_true_eq]
      constructor
      · intro h; right; exact h
      · rintro (h | h)
        · exact Bool.noConfusion h
        · exact h
  | cons d ds ih =>
      rw [List.cons_append, covered, covered, Bool.or_eq_true,
        Bool.or_eq_true, ih]
      tauto

theorem covered_false_of_le {done : List (Nat × Nat)} {c j : Nat}
    (h : ∀ m ∈ done, m.2 ≤ c) (hj : c ≤ j) : covered done j = false := by
  induction done with
  | nil => rfl
  | cons d ds ih =>
      rw [covered, Bool.or_eq_false_iff]
      constructor
      · rw [Bool.and_eq_false_iff]
        right
        have := h d (List.mem_cons_self _ _)
        exact decide_eq_false (by omega)
      · exact ih (fun m hm => h m (List.mem_cons_of_mem _ hm))

theorem splice_getElem? (base ln : List Char) (a e : Nat)
    (hbase : base.length = ln.length) (hae : a + 2 ≤ e)
    (hel : e ≤ ln.length) :
    ∀ j : Nat,
      (base.take a ++ List.replicate (e - a) ' ' ++ ln.drop e)[j]? =
        if j < a then base[j]? else if j < e then some ' ' else ln[j]? := by
  intro j
  have hta : (base.take a).length = a := by
    rw [List.length_take]
    omega
  have htr : (base.take a ++ List.replicate (e - a) ' ').length = e := by
    rw [List.length_append, hta, List.length_replicate]
    omega
  rw [@List.getElem?_append Char
    (base.take a ++ List.replicate (e - a) ' ') (ln.drop e) j]
  rw [htr]
  by_cases hje : j < e
  · rw [if_pos hje]
    rw [@List.getElem?_append Char (base.take a)
      (List.replicate (e - a) ' ') j]
    rw [hta]
    by_cases hja : j < a
    · rw [if_pos hja, if_pos hja, List.getElem?_take, if_pos hja]
    · rw [if_neg hja, if_neg hja, if_pos hje, List.getElem?_replicate,
        if_pos (by omega)]
  · rw [if_neg hje, if_neg (by omega), if_neg hje, List.getElem?_drop,
      Nat.add_sub_cancel' (by omega)]

theorem scanMatches_ok {row : Nat} {ln : List Char} :
    ∀ (ms : List (Nat × Nat)) (i : Nat)
      (found : List (List Char × (Nat × Nat))) (repl : List Char)
      (done : List (Nat × Nat)),
      MatchSpec ln i ms →
      (∀ m ∈ done, m.2 ≤ i) →
      ReplInv ln done repl →
      ∀ found' repl',
        scanMatches row ln found repl ms = .ok (found', repl') →
        ReplInv ln (done ++ ms) repl' := by
  intro ms
  induction ms with
  | nil =>
      intro i found repl done _ _ hinv found' repl' hok
      simp only [scanMatches] at hok
      obtain ⟨h1, h2⟩ := Prod.mk.injEq .. ▸ Except.ok.inj hok
      subst h2
      simpa using hinv
  | cons m ms ihm =>
      intro i found repl done hms hdone hinv found' repl' hok
      cases hms with
      | cons _ a b _ hia hpa hfirst hab hpb hnorp hrec =>
        simp only [scanMatches] at hok
        by_cases hemp : trim (matchInner ln (a, b + 1)) = []
        · rw [if_pos hemp] at hok
          exact Except.noConfusion hok
        · rw [if_neg hemp] at hok
          cases hlk : lookupFound found (trim (matchInner ln (a, b + 1))) with
          | some orig =>
              rw [hlk] at hok
              exact Except.noConfusion hok
          | none =>
              rw [hlk] at hok
              dsimp only at hok
              have hblen : b < ln.length :=
                (List.getElem?_eq_some_iff.mp hpb).1
              -- the invariant after splicing this span
              set base := if repl = [] then ln else repl with hbase
              have hbase_len : base.length = ln.length := by
                rw [hbase]
                rcases hinv with ⟨_, hr⟩ | ⟨hl, _⟩
                · rw [if_pos hr]
                · by_cases hr : repl = []
                  · rw [if_pos hr]
                  · rw [if_neg hr]; exact hl
              have hbase_pt : ∀ j : Nat, base[j]? =
                  if covered done j = true then some ' ' else ln[j]? := by
                intro j
                rw [hbase]
                rcases hinv with ⟨hd, hr⟩ | ⟨hlen0, hpt⟩
                · rw [if_pos hr, hd, covered_nil]
                  rfl
                · by_cases hr : repl = []
                  · rw [if_pos hr]
                    have hln : ln = [] := by
                      rw [← List.length_eq_zero, ← hlen0, hr]
                      rfl
                    have hj := hpt j
                    rw [hr] at hj
                    rw [← hj, hln]
                  · rw [if_neg hr]; exact hpt j
              have hinv' : ReplInv ln (done ++ [(a, b + 1)])
                  (base.take a ++ List.replicate (b + 1 - a) ' ' ++
                    ln.drop (b + 1)) := by
                right
                constructor
                · rw [List.length_append, List.length_append,
                    List.length_take, List.length_replicate,
                    List.length_drop, hbase_len]
                  omega
                · intro j
                  rw [splice_getElem? base ln a (b + 1) hbase_len
                    (by omega) (by omega) j]
                  have hcov := covered_append_single done (a, b + 1) j
                  by_cases hja : j < a
                  · rw [if_pos hja, hbase_pt j]
                    have hdj : covered (done ++ [(a, b + 1)]) j =
                        covered done j := by
                      by_cases hc : covered done j = true
                      · rw [hc]
                        exact hcov.mpr (Or.inl hc)
                      · rw [Bool.not_eq_true] at hc
                        rw [hc, Bool.eq_false_iff]
                        intro hc2
                        rcases hcov.mp hc2 with h | h
                        · rw [h] at hc; exact Bool.noConfusion hc
                        · omega
                    rw [hdj]
                  · by_cases hjb : j < b + 1
                    · rw [if_neg hja, if_pos hjb,
                        if_pos (hcov.mpr (Or.inr ⟨by omega, hjb⟩))]
                    · rw [if_neg hja, if_neg hjb]
                      have hcf : covered (done ++ [(a, b + 1)]) j = false := by
                        rw [Bool.eq_false_iff]
                        intro hc
                        rcases hcov.mp hc with h | h
                        · have := covered_false_of_le hdone
                            (show i ≤ j by omega)
                          rw [h] at this
                          exact Bool.noConfusion this
                        · omega
                      rw [hcf]
                      rw [if_neg (fun hc => Bool.noConfusion hc)]
              have hdone' : ∀ m ∈ done ++ [(a, b + 1)], m.2 ≤ b + 1 := by
                intro m hm
                rcases List.mem_append.mp hm with h | h
                · have := hdone m h
                  omega
                · rw [List.mem_singleton.mp h]
              have := ihm (b + 1) (found ++ [(trim (matchInner ln (a, b + 1)),
                (row, a))]) _ (done ++ [(a, b + 1)]) hrec hdone' hinv'
                found' repl' hok
              rw [List.append_assoc] at this
              simpa using this

/-- The committed text of a row whose scan succeeded: pointwise, every
position inside a match span is a blank and every other position keeps
its original character. -/
theorem scanMatches_top {row : Nat} {ln : List Char}
    {found found' : List (List Char × (Nat × Nat))} {repl' : List Char}
    (hok : scanMatches row ln found [] (lineMatches ln) =
      .ok (found', repl')) :
    ∀ j : Nat, (if repl' = [] then ln else repl')[j]? =
      if covered (lineMatches ln) j = true then some ' ' else ln[j]? := by
  have hinv := scanMatches_ok (lineMatches ln) 0 found [] []
    (lineMatches_spec ln) (by intro m hm; exact absurd hm (List.not_mem_nil m))
    (Or.inl ⟨rfl, rfl⟩) found' repl' hok
  rw [List.nil_append] at hinv
  rcases hinv with ⟨hms, hrepl⟩ | ⟨hlen, hpt⟩
  · subst hrepl
    intro j
    rw [if_pos rfl, hms, covered_nil,
      if_neg (fun hc => Bool.noConfusion hc)]
  · intro j
    by_cases hrnil : repl' = []
    · rw [if_pos hrnil]
      have hj := hpt j
      rw [hrnil] at hj
      have hln : ln = [] := by
        rw [← List.length_eq_zero, ← hlen, hrnil]
        rfl
      rw [← hj, hln]
    · rw [if_neg hrnil]
      exact hpt j

/-- Success of the row scan over the whole plan: every output row is the
input row with its match spans blanked. -/
theorem scanRows_ok_rows :
    ∀ (rows : List (List Char)) (row : Nat)
      (found found' : List (List Char × (Nat × Nat))),
      (scanRows rows row found).2 = .ok found' →
      (scanRows rows row found).1.length = rows.length ∧
      ∀ (k : Nat) (ln0 : List Char), rows[k]? = some ln0 →
        ∃ ln' : List Char, (scanRows rows row found).1[k]? = some ln' ∧
          ∀ j : Nat, ln'[j]? =
            if covered (lineMatches ln0) j = true then some ' '
            else ln0[j]? := by
  intro rows
  induction rows with
  | nil =>
      intro row found found' _
      refine ⟨rfl, ?_⟩
      intro k ln0 hk
      simp at hk
  | cons ln rest ih =>
      intro row found found' hok
      rw [scanRows] at hok ⊢
      revert hok
      cases hsm : scanMatches row ln found [] (lineMatches ln) with
      | error e =>
          intro hok
          dsimp only at hok
          exact Except.noConfusion hok
      | ok pr =>
          intro hok
          dsimp only at hok ⊢
          obtain ⟨f0, r0⟩ := pr
          have hrec := ih (row + 1) f0 found' hok
          refine ⟨by rw [List.length_cons, List.length_cons, hrec.1], ?_⟩
          intro k ln0 hk
          cases k with
          | zero =>
              obtain rfl : ln = ln0 := by simpa using hk
              refine ⟨if r0 = [] then ln else r0, by simp, ?_⟩
              exact scanMatches_top hsm
          | succ m =>
              have hk' : rest[m]? = some ln0 := by simpa using hk
              obtain ⟨ln', hln', hpt⟩ := hrec.2 m ln0 hk'
              exact ⟨ln', by simpa using hln', hpt⟩

/-- Failure of the row scan: the rows before the failing row are blanked,
the failing row and all later rows are untouched. -/
theorem scanRows_err_rows :
    ∀ (rows : List (List Char)) (row : Nat)
      (found : List (List Char × (Nat × Nat))) (e : PlanError),
      (scanRows rows row found).2 = .error e →
      ∃ K, K < rows.length ∧
        (∀ k : Nat, K ≤ k → (scanRows rows row found).1[k]? = rows[k]?) ∧
        (∀ (k : Nat) (ln0 : List Char), k < K → rows[k]? = some ln0 →
          ∃ ln' : List Char, (scanRows rows row found).1[k]? = some ln' ∧
            ∀ j : Nat, ln'[j]? =
              if covered (lineMatches ln0) j = true then some ' '
              else ln0[j]?) := by
  intro rows
  induction rows with
  | nil =>
      intro row found e herr
      rw [scanRows] at herr
      exact Except.noConfusion herr
  | cons ln rest ih =>
      intro row found e herr
      rw [scanRows] at herr ⊢
      revert herr
      cases hsm : scanMatches row ln found [] (lineMatches ln) with
      | error e' =>
          intro herr
          dsimp only at herr ⊢
          refine ⟨0, by simp, ?_, ?_⟩
          · intro k _
            rfl
          · intro k ln0 hk
            omega
      | ok pr =>
          intro herr
          dsimp only at herr ⊢
          obtain ⟨f0, r0⟩ := pr
          obtain ⟨K, hK, hunch, hblank⟩ := ih (row + 1) f0 e herr
          refine ⟨K + 1, by simpa using hK, ?_, ?_⟩
          · intro k hk
            cases k with
            | zero => omega
            | succ m =>
                have := hunch m (by omega)
                simpa using this
          · intro k ln0 hk hln0
            cases k with
            | zero =>
                obtain rfl : ln = ln0 := by simpa using hln0
                refine ⟨if r0 = [] then ln else r0, by simp, ?_⟩
                exact scanMatches_top hsm
            | succ m =>
                have hk' : rest[m]? = some ln0 := by simpa using hln0
                obtain ⟨ln', hln', hpt⟩ := hblank m ln0 (by omega) hk'
                exact ⟨ln', by simpa using hln', hpt⟩

/-- A row whose text is a blanked copy of an already-scanned row has no
matches left. -/
theorem lineMatches_of_blanked {ln0 ln' : List Char}
    (hpt : ∀ j : Nat, ln'[j]? =
      if covered (lineMatches ln0) j = true then some ' ' else ln0[j]?) :
    lineMatches ln' = [] := by
  cases hlm : lineMatches ln' with
  | nil => rfl
  | cons m tl =>
      exfalso
      have hspec := lineMatches_spec ln'
      rw [hlm] at hspec
      have hb := MatchSpec_bounds hspec m (List.mem_cons_self _ _)
      obtain ⟨-, hm2, -, hlp, hrp⟩ := hb
      have hext : ∀ (k : Nat) (ch : Char), ln'[k]? = some ch → ch ≠ ' ' →
          covered (lineMatches ln0) k = false ∧ ln0[k]? = some ch := by
        intro k ch hk hch
        have := hpt k
        rw [hk] at this
        by_cases hc : covered (lineMatches ln0) k = true
        · rw [if_pos hc] at this
          exact absurd (Option.some.inj this) hch
        · rw [if_neg hc] at this
          rw [Bool.not_eq_true] at hc
          exact ⟨hc, this.symm⟩
      obtain ⟨hcp, hp⟩ := hext m.1 '(' hlp (by decide)
      obtain ⟨hcq, hq⟩ := hext (m.2 - 1) ')' hrp (by decide)
      exact MatchSpec_nopair (lineMatches_spec ln0) m.1 (m.2 - 1)
        (Nat.zero_le _) (by omega) hp hq hcp hcq

/-- Scanning rows without any match leaves everything unchanged. -/
theorem scanRows_id :
    ∀ (rows : List (List Char)) (row : Nat)
      (found : List (List Char × (Nat × Nat))),
      (∀ (k : Nat) (ln0 : List Char), rows[k]? = some ln0 →
        lineMatches ln0 = []) →
      scanRows rows row found = (rows, .ok found) := by
  intro rows
  induction rows with
  | nil => intro row found _; rfl
  | cons ln rest ih =>
      intro row found hno
      rw [scanRows]
      have hlm : lineMatches ln = [] := hno 0 ln (by simp)
      rw [hlm]
      have hsm : scanMatches row ln found [] [] = .ok (found, []) := rfl
      rw [hsm]
      dsimp only
      rw [ih (row + 1) found (fun k ln0 hk => hno (k + 1) ln0 (by simpa using hk))]
      rw [if_pos rfl]

theorem scanMatches_tokens (row : Nat) (ln : List Char) :
    ∀ (ms : List (Nat × Nat)) (found : List (List Char × (Nat × Nat)))
      (repl : List Char),
      Except.map Prod.fst (scanMatches row ln found repl ms) =
        procTokens (rowTokens row ln ms) found := by
  intro ms
  induction ms with
  | nil => intro found repl; rfl
  | cons m ms ih =>
      intro found repl
      rw [scanMatches, rowTokens, List.map_cons, procTokens]
      by_cases hemp : trim (matchInner ln m) = []
      · rw [if_pos hemp, if_pos hemp]
        rfl
      · rw [if_neg hemp, if_neg hemp]
        cases hlk : lookupFound found (trim (matchInner ln m)) with
        | some orig => rfl
        | none =>
            dsimp only
            exact ih _ _

theorem procTokens_append :
    ∀ (ts1 ts2 : List (List Char × (Nat × Nat)))
      (found : List (List Char × (Nat × Nat))),
      procTokens (ts1 ++ ts2) found =
        match procTokens ts1 found with
        | .ok f => procTokens ts2 f
        | .error e => .error e := by
  intro ts1
  induction ts1 with
  | nil => intro ts2 found; rfl
  | cons t ts ih =>
      intro ts2 found
      rw [List.cons_append, procTokens, procTokens]
      by_cases hemp : t.1 = []
      · rw [if_pos hemp, if_pos hemp]
      · rw [if_neg hemp, if_neg hemp]
        cases hlk : lookupFound found t.1 with
        | some orig => rfl
        | none => exact ih ts2 _

/-- The error/`found` component of the row scan equals the pure fold over
the flattened token stream. -/
theorem scanRows_tokens :
    ∀ (rows : List (List Char)) (row : Nat)
      (found : List (List Char × (Nat × Nat))),
      (scanRows rows row found).2 = procTokens (planTokens rows row) found := by
  intro rows
  induction rows with
  | nil => intro row found; rfl
  | cons ln rest ih =>
      intro row found
      rw [scanRows, planTokens, procTokens_append]
      have htok := scanMatches_tokens row ln (lineMatches ln) found []
      cases hsm : scanMatches row ln found [] (lineMatches ln) with
      | error e =>
          rw [hsm] at htok
          rw [← htok]
          rfl
      | ok pr =>
          rw [hsm] at htok
          rw [← htok]
          dsimp only
          exact ih (row + 1) pr.1

theorem firstPos_append_left {ts1 : List (List Char × (Nat × Nat))}
    (ts2 : List (List Char × (Nat × Nat)))
    {n : List Char} {p : Nat × Nat} (h : firstPos ts1 n = some p) :
    firstPos (ts1 ++ ts2) n = some p := by
  unfold firstPos at h ⊢
  rw [List.find?_append]
  cases hf : ts1.find? (fun t => t.1 == n) with
  | none => rw [hf] at h; exact Option.noConfusion h
  | some e =>
      rw [hf] at h
      rw [Option.or]
      exact h

/-- When the fold reports a duplicate it reports the position of the very
first token of the stream carrying that name. -/
theorem procTokens_dup_first {n : List Char} {p : Nat × Nat} :
    ∀ (ts pre found : List (List Char × (Nat × Nat))),
      (∀ m : List Char, lookupFound found m = firstPos pre m) →
      procTokens ts found = .error (.duplicateName n p) →
      firstPos (pre ++ ts) n = some p ∧ n ≠ [] := by
  intro ts
  induction ts with
  | nil =>
      intro pre found _ herr
      rw [procTokens] at herr
      exact Except.noConfusion herr
  | cons t ts ih =>
      intro pre found hfp herr
      rw [procTokens] at herr
      by_cases hemp : t.1 = []
      · rw [if_pos hemp] at herr
        exact PlanError.noConfusion (Except.error.inj herr)
      · rw [if_neg hemp] at herr
        cases hlk : lookupFound found t.1 with
        | some orig =>
            rw [hlk] at herr
            obtain ⟨hn, hp⟩ :=
              PlanError.duplicateName.inj (Except.error.inj herr)
            subst hn
            subst hp
            refine ⟨?_, hemp⟩
            have h1 : firstPos pre t.1 = some orig := by
              rw [← hfp t.1]
              exact hlk
            have h2 := firstPos_append_left (t :: ts) h1
            exact h2
        | none =>
            rw [hlk] at herr
            have hfp' : ∀ m : List Char,
                lookupFound (found ++ [t]) m = firstPos (pre ++ [t]) m := by
              intro m
              unfold lookupFound firstPos at hfp ⊢
              rw [List.find?_append, List.find?_append]
              cases hf : found.find? (fun e => e.1 == m) with
              | some e =>
                  have := hfp m
                  rw [hf] at this
                  cases hg : List.find? (fun t => t.1 == m) pre with
                  | none =>
                      rw [hg] at this
                      exact absurd this.symm (by simp)
                  | some e' =>
                      rw [hg] at this
                      rw [Option.or, Option.or]
                      exact this
              | none =>
                  have := hfp m
                  rw [hf] at this
                  cases hg : List.find? (fun t => t.1 == m) pre with
                  | some e' =>
                      rw [hg] at this
                      exact absurd this (by simp)
                  | none =>
                      rfl
            have := ih (pre ++ [t]) (found ++ [t]) hfp' herr
            rw [List.append_assoc] at this
            simpa using this

theorem procTokens_ok_mem :
    ∀ (ts found found' : List (List Char × (Nat × Nat))),
      procTokens ts found = .ok found' →
      ∀ e ∈ found', e ∈ found ∨ e ∈ ts := by
  intro ts
  induction ts with
  | nil =>
      intro found found' hok e he
      rw [procTokens] at hok
      obtain rfl := Except.ok.inj hok
      left
      exact he
  | cons t ts ih =>
      intro found found' hok e he
      rw [procTokens] at hok
      by_cases hemp : t.1 = []
      · rw [if_pos hemp] at hok
        exact Except.noConfusion hok
      · rw [if_neg hemp] at hok
        cases hlk : lookupFound found t.1 with
        | some orig =>
            rw [hlk] at hok
            exact Except.noConfusion hok
        | none =>
            rw [hlk] at hok
            rcases ih _ found' hok e he with h | h
            · rcases List.mem_append.mp h with h' | h'
              · left; exact h'
              · right
                rw [List.mem_singleton.mp h']
                exact List.mem_cons_self _ _
            · right; exact List.mem_cons_of_mem _ h

theorem planTokens_mem {e : List Char × (Nat × Nat)} :
    ∀ (rows : List (List Char)) (row : Nat),
      e ∈ planTokens rows row →
      ∃ (k : Nat) (ln0 : List Char) (m : Nat × Nat),
        rows[k]? = some ln0 ∧ m ∈ lineMatches ln0 ∧
        e = (trim (matchInner ln0 m), (row + k, m.1)) := by
  intro rows
  induction rows with
  | nil =>
      intro row h
      exact absurd h (List.not_mem_nil e)
  | cons ln rest ih =>
      intro row h
      rcases List.mem_append.mp h with h | h
      · rw [rowTokens, List.mem_map] at h
        obtain ⟨m, hm, rfl⟩ := h
        exact ⟨0, ln, m, by simp, hm, by rw [Nat.add_zero]⟩
      · obtain ⟨k, ln0, m, hk, hm, he⟩ := ih (row + 1) h
        refine ⟨k + 1, ln0, m, by simpa using hk, hm, ?_⟩
        rw [he]
        have : row + 1 + k = row + (k + 1) := by omega
        rw [this]

theorem insertSorted_mem {x e : List Char × (Nat × Nat)} :
    ∀ l : List (List Char × (Nat × Nat)),
      x ∈ insertSorted e l ↔ x = e ∨ x ∈ l := by
  intro l
  induction l with
  | nil => simp [insertSorted]
  | cons f fs ih =>
      rw [insertSorted]
      by_cases hle : nameLe e.1 f.1
      · rw [if_pos hle]
        simp
      · rw [if_neg hle]
        rw [List.mem_cons, List.mem_cons, ih]
        tauto

theorem sortFound_mem {x : List Char × (Nat × Nat)} :
    ∀ found : List (List Char × (Nat × Nat)),
      x ∈ sortFound found ↔ x ∈ found := by
  intro found
  induction found with
  | nil => simp [sortFound]
  | cons e fs ih =>
      rw [sortFound, List.foldr_cons]
      rw [show List.foldr insertSorted [] fs = sortFound fs from rfl]
      rw [insertSorted_mem, ih, List.mem_cons]

theorem mkRooms_mem {r : Room} {found : List (List Char × (Nat × Nat))}
    (h : r ∈ mkRooms found) :
    ∃ e ∈ found, r = ⟨e.1, (e.2.2 : Int), (e.2.1 : Int), Chairs.zero⟩ := by
  rw [mkRooms, List.mem_map] at h
  obtain ⟨e, he, rfl⟩ := h
  exact ⟨e, (sortFound_mem found).mp he, rfl⟩

theorem find_rooms_eq_ok {plan : List (List Char)} (rooms : List Room)
    {found : List (List Char × (Nat × Nat))}
    (hok : (scanRows plan 0 []).2 = .ok found) :
    find_rooms plan rooms =
      ⟨(scanRows plan 0 []).1, rooms ++ mkRooms found, none⟩ := by
  have hpair : scanRows plan 0 [] =
      ((scanRows plan 0 []).1, Except.ok found) := by
    rw [← hok]
  unfold find_rooms
  rw [hpair]

theorem find_rooms_eq_err {plan : List (List Char)} (rooms : List Room)
    {e : PlanError} (herr : (scanRows plan 0 []).2 = .error e) :
    find_rooms plan rooms = ⟨(scanRows plan 0 []).1, rooms, some e⟩ := by
  have hpair : scanRows plan 0 [] =
      ((scanRows plan 0 []).1, Except.error e) := by
    rw [← herr]
  unfold find_rooms
  rw [hpair]

theorem Chairs_get_add (a b : Chairs) (t : Char) :
    (chairsAdd a b).get t = a.get t + b.get t := by
  unfold chairsAdd Chairs.get
  split_ifs <;> rfl

theorem main_loop_total :
    ∀ (rooms : List Room) (plan : List (List Char)) (total : Room)
      (t : Char),
      (main_loop plan rooms total).2.2.chairs.get t =
        total.chairs.get t +
          ((main_loop plan rooms total).2.1.map
            (fun r => r.chairs.get t)).sum := by
  intro rooms
  induction rooms with
  | nil =>
      intro plan total t
      simp [main_loop]
  | cons room rest ih =>
      intro plan total t
      rw [main_loop]
      dsimp only
      rw [ih]
      dsimp only
      rw [List.map_cons, List.sum_cons, Chairs_get_add]
      omega

/-! ### The claims -/

/-- **C1** For every grid and room, `find_chairs` increments the room's
tally for a chair cell's category exactly once per chair cell reachable
from the room's origin through open (non-wall, non-visited) cells, and a
chair cell with no open path from the origin is never counted: the
processed trace is duplicate-free, it contains exactly the reachable
cells, and each category's tally grows by the number of trace cells
holding that category's symbol. -/
theorem claim_C1 (plan : List (List Char)) (room : Room) :
    (find_chairs_run plan room).trace.Nodup ∧
    (∀ p : Int × Int, p ∈ (find_chairs_run plan room).trace ↔
      reaches plan (room.x, room.y) p) ∧
    ((find_chairs plan room).2.chairs.get 'W' = room.chairs.get 'W' +
      countOrig plan 'W' (find_chairs_run plan room).trace) ∧
    ((find_chairs plan room).2.chairs.get 'P' = room.chairs.get 'P' +
      countOrig plan 'P' (find_chairs_run plan room).trace) ∧
    ((find_chairs plan room).2.chairs.get 'S' = room.chairs.get 'S' +
      countOrig plan 'S' (find_chairs_run plan room).trace) ∧
    ((find_chairs plan room).2.chairs.get 'C' = room.chairs.get 'C' +
      countOrig plan 'C' (find_chairs_run plan room).trace) :=
  ⟨find_chairs_trace_nodup plan room,
   find_chairs_trace_iff plan room,
   find_chairs_count plan room 'W' (by decide),
   find_chairs_count plan room 'P' (by decide),
   find_chairs_count plan room 'S' (by decide),
   find_chairs_count plan room 'C' (by decide)⟩

/-- **C2** After `find_chairs` has been run for every room in turn (each
origin an open, non-wall cell), every cell originally reachable from some
room's origin holds the visited sentinel, every wall cell keeps its
original character, and every open cell unreachable from all origins is
unchanged. -/
theorem claim_C2 (plan : List (List Char)) (rooms : List Room)
    (h : ∀ r ∈ rooms, isOpen plan (r.x, r.y) = true) :
    (∀ p : Int × Int, unionReach plan rooms p →
      plan_get (fill_all plan rooms) p.1 p.2 = some VISITED) ∧
    (∀ (p : Int × Int) (ch : Char), plan_get plan p.1 p.2 = some ch →
      ch ∈ WALL_TYPES → plan_get (fill_all plan rooms) p.1 p.2 = some ch) ∧
    (∀ p : Int × Int, isOpen plan p = true → ¬ unionReach plan rooms p →
      plan_get (fill_all plan rooms) p.1 p.2 = plan_get plan p.1 p.2) := by
  have hm := fill_all_markedOn plan rooms
  refine ⟨?_, ?_, ?_⟩
  · intro p hp
    have hmk := (hm p).1 hp
    obtain ⟨r, hr, hreach⟩ := hp
    have hsome := reaches_isSome (h r hr) hreach
    rw [hmk]
    cases hg : plan_get plan p.1 p.2 with
    | none => rw [hg] at hsome; exact Bool.noConfusion hsome
    | some c => rfl
  · intro p ch hab hwall
    have hnot : ¬ unionReach plan rooms p := by
      rintro ⟨r, hr, hreach⟩
      have hopen := reaches_isOpen (h r hr) hreach
      unfold isOpen at hopen
      rw [hab] at hopen
      have := of_decide_eq_true hopen
      exact this.2 hwall
    rw [(hm p).2 hnot]
    exact hab
  · intro p _ hnot
    exact (hm p).2 hnot

/-- **C2 witness**: the hypotheses are satisfiable — a one-cell open plan
with one room at its origin. -/
theorem claim_C2_witness :
    (∀ r ∈ ([⟨['A'], 0, 0, Chairs.zero⟩] : List Room),
      isOpen [[' ']] (r.x, r.y) = true) ∧
    ((∀ p : Int × Int,
        unionReach [[' ']] [⟨['A'], 0, 0, Chairs.zero⟩] p →
        plan_get (fill_all [[' ']] [⟨['A'], 0, 0, Chairs.zero⟩]) p.1 p.2 =
          some VISITED) ∧
      (∀ (p : Int × Int) (ch : Char),
        plan_get [[' ']] p.1 p.2 = some ch → ch ∈ WALL_TYPES →
        plan_get (fill_all [[' ']] [⟨['A'], 0, 0, Chairs.zero⟩]) p.1 p.2 =
          some ch) ∧
      (∀ p : Int × Int, isOpen [[' ']] p = true →
        ¬ unionReach [[' ']] [⟨['A'], 0, 0, Chairs.zero⟩] p →
        plan_get (fill_all [[' ']] [⟨['A'], 0, 0, Chairs.zero⟩]) p.1 p.2 =
          plan_get [[' ']] p.1 p.2)) :=
  ⟨by decide, claim_C2 [[' ']] [⟨['A'], 0, 0, Chairs.zero⟩] (by decide)⟩

/-- **C3 counterexample**: on the one-cell plan `["W"]` the fill counts
the chair in the room's tally, but the driver's total — present in the
program state during the call — is untouched by `find_chairs` (the code
passes no total accumulator to it), whereas the spec-modelled
`fill(grid, room, totalAccumulator)` increments the total during the
fill. -/
theorem claim_C3_counterexample :
    (find_chairs_call [['W']] ⟨[], 0, 0, Chairs.zero⟩
      ⟨['t'], 0, 0, Chairs.zero⟩).2.1.chairs.get 'W' = 1 ∧
    (find_chairs_call [['W']] ⟨[], 0, 0, Chairs.zero⟩
      ⟨['t'], 0, 0, Chairs.zero⟩).2.2.chairs.get 'W' = 0 ∧
    (fillWithTotal [['W']] ⟨[], 0, 0, Chairs.zero⟩ Chairs.zero).2.2.get 'W'
      = 1 := by
  decide

/-- **C3 amended** `find_chairs` takes only the room; the driver adds each
room's whole post-fill tally into the running total right after that
room's fill, so the total accumulates incrementally across the fills and
equals the element-wise sum of the returned rooms' tallies without being
recomputed at the end. -/
theorem claim_C3 (plan : List (List Char)) (rooms : List Room)
    (total : Room) (t : Char) :
    (main_loop plan rooms total).2.2.chairs.get t =
      total.chairs.get t +
        ((main_loop plan rooms total).2.1.map
          (fun r => r.chairs.get t)).sum :=
  main_loop_total rooms plan total t

/-- **C4 counterexample**: on the one-row plan `"(A) ()"` the scan fails
on the second match, and the span of the first match `(A)` — earlier in
the same row — is NOT overwritten: the plan is completely unchanged when
the error is raised. -/
theorem claim_C4_counterexample :
    (find_rooms ["(A) ()".toList] []).err =
      some (.emptyName (0, 4)) ∧
    (find_rooms ["(A) ()".toList] []).plan = ["(A) ()".toList] := by
  decide

/-- **C4 amended** When `find_rooms` raises an error there is a failing
row `K`: every matched span in the rows strictly before `K` is already
blanked, while row `K` itself — including any matches earlier in it than
the failing one — and all later rows still hold their original text. -/
theorem claim_C4 (plan : List (List Char)) (rooms : List Room)
    (e : PlanError) (h : (find_rooms plan rooms).err = some e) :
    ∃ K : Nat, K < plan.length ∧
      (∀ k : Nat, K ≤ k → (find_rooms plan rooms).plan[k]? = plan[k]?) ∧
      (∀ (k : Nat) (ln0 : List Char), k < K → plan[k]? = some ln0 →
        ∃ ln' : List Char, (find_rooms plan rooms).plan[k]? = some ln' ∧
          ∀ j : Nat, ln'[j]? =
            if covered (lineMatches ln0) j = true then some ' '
            else ln0[j]?) := by
  cases hres : (scanRows plan 0 []).2 with
  | ok found =>
      rw [find_rooms_eq_ok rooms hres] at h
      exact Option.noConfusion h
  | error e' =>
      rw [find_rooms_eq_err rooms hres] at h ⊢
      obtain ⟨K, hK, hunch, hblank⟩ := scanRows_err_rows plan 0 [] e' hres
      exact ⟨K, hK, hunch, hblank⟩

/-- **C4 witness**: instantiated at the erroring one-row plan. -/
theorem claim_C4_witness :
    ((find_rooms ["(A) ()".toList] []).err = some (.emptyName (0, 4))) ∧
    (∃ K : Nat, K < ["(A) ()".toList].length ∧
      (∀ k : Nat, K ≤ k →
        (find_rooms ["(A) ()".toList] []).plan[k]? =
          ["(A) ()".toList][k]?) ∧
      (∀ (k : Nat) (ln0 : List Char), k < K →
        ["(A) ()".toList][k]? = some ln0 →
        ∃ ln' : List Char,
          (find_rooms ["(A) ()".toList] []).plan[k]? = some ln' ∧
          ∀ j : Nat, ln'[j]? =
            if covered (lineMatches ln0) j = true then some ' '
            else ln0[j]?)) :=
  ⟨by decide, claim_C4 ["(A) ()".toList] [] (.emptyName (0, 4)) (by decide)⟩

/-- **C5 counterexample**: after a successful `find_rooms`, a second call
does NOT return an empty sequence — it returns `self.rooms`, which still
holds the room found by the first call. -/
theorem claim_C5_counterexample :
    (find_rooms (find_rooms ["(A)".toList] []).plan
      (find_rooms ["(A)".toList] []).rooms).rooms.length = 1 ∧
    ¬ (find_rooms (find_rooms ["(A)".toList] []).plan
      (find_rooms ["(A)".toList] []).rooms).rooms = [] := by
  decide

/-- **C5 amended** Calling `find_rooms` a second time on the token-erased
grid finds no new tokens: it raises no error, leaves the plan unchanged,
appends nothing, and returns the same `self.rooms` list (the first call's
rooms, not duplicated, not an empty list). -/
theorem claim_C5 (plan : List (List Char)) (rooms : List Room)
    (h : (find_rooms plan rooms).err = none) :
    find_rooms (find_rooms plan rooms).plan (find_rooms plan rooms).rooms =
      ⟨(find_rooms plan rooms).plan, (find_rooms plan rooms).rooms,
        none⟩ := by
  cases hres : (scanRows plan 0 []).2 with
  | error e =>
      rw [find_rooms_eq_err rooms hres] at h
      exact Option.noConfusion h
  | ok found =>
      rw [find_rooms_eq_ok rooms hres]
      dsimp only
      obtain ⟨hlen, hpt⟩ := scanRows_ok_rows plan 0 [] found hres
      have hnomatch : ∀ (k : Nat) (ln' : List Char),
          (scanRows plan 0 []).1[k]? = some ln' → lineMatches ln' = [] := by
        intro k ln' hk
        have hklt : k < plan.length := by
          rw [← hlen]
          exact (List.getElem?_eq_some_iff.mp hk).1
        obtain ⟨ln0, hln0⟩ : ∃ ln0, plan[k]? = some ln0 :=
          ⟨plan[k], List.getElem?_eq_getElem hklt⟩
        obtain ⟨ln'', hln'', hptj⟩ := hpt k ln0 hln0
        rw [hk] at hln''
        obtain rfl := Option.some.inj hln''
        exact lineMatches_of_blanked hptj
      have hscan2 : scanRows ((scanRows plan 0 []).1) 0 [] =
          ((scanRows plan 0 []).1, .ok []) :=
        scanRows_id ((scanRows plan 0 []).1) 0 [] hnomatch
      have hres2 : (scanRows ((scanRows plan 0 []).1) 0 []).2 =
          .ok ([] : List (List Char × (Nat × Nat))) := by
        rw [hscan2]
      rw [find_rooms_eq_ok (rooms ++ mkRooms found) hres2]
      have hplan2 : (scanRows ((scanRows plan 0 []).1) 0 []).1 =
          (scanRows plan 0 []).1 := by
        rw [hscan2]
      rw [hplan2]
      rw [show mkRooms [] = [] from rfl, List.append_nil]

/-- **C5 witness**: instantiated at a one-room plan. -/
theorem claim_C5_witness :
    ((find_rooms ["(A)".toList] []).err = none) ∧
    (find_rooms (find_rooms ["(A)".toList] []).plan
        (find_rooms ["(A)".toList] []).rooms =
      ⟨(find_rooms ["(A)".toList] []).plan,
        (find_rooms ["(A)".toList] []).rooms, none⟩) :=
  ⟨by decide, claim_C5 ["(A)".toList] [] (by decide)⟩

/-- **C6 counterexample**: the plan `["+---+", "|(A)|", "+---+"]` yields
one room `A` with origin `x = 1` — the column OF the opening parenthesis
on row 1 — not column 2 as the claim states. -/
theorem claim_C6_counterexample :
    (find_rooms ["+---+".toList, "|(A)|".toList, "+---+".toList]
      []).rooms.map (fun r => (r.name, r.x, r.y)) =
        [(['A'], (1 : Int), (1 : Int))] ∧
    ¬ ∃ r ∈ (find_rooms ["+---+".toList, "|(A)|".toList, "+---+".toList]
      []).rooms, r.x = 2 := by
  decide

/-- **C6 amended** Every room returned by a successful `find_rooms` has as
origin the row of its name token and the column of the token's opening
parenthesis itself (`match.start()`), not the column after it. -/
theorem claim_C6 (plan : List (List Char)) (rooms : List Room)
    (h : (find_rooms plan rooms).err = none) :
    ∀ room ∈ (find_rooms plan rooms).rooms, room ∈ rooms ∨
      ∃ (row : Nat) (ln0 : List Char) (m : Nat × Nat),
        plan[row]? = some ln0 ∧ m ∈ lineMatches ln0 ∧
        ln0[m.1]? = some '(' ∧
        room.name = trim (matchInner ln0 m) ∧
        room.x = (m.1 : Int) ∧ room.y = (row : Int) := by
  cases hres : (scanRows plan 0 []).2 with
  | error e =>
      rw [find_rooms_eq_err rooms hres] at h
      exact Option.noConfusion h
  | ok found =>
      rw [find_rooms_eq_ok rooms hres]
      dsimp only
      intro room hmem
      rcases List.mem_append.mp hmem with hmem | hmem
      · left; exact hmem
      · right
        obtain ⟨en, hen, rfl⟩ := mkRooms_mem hmem
        have hproc : procTokens (planTokens plan 0) [] = .ok found := by
          rw [← scanRows_tokens]
          exact hres
        rcases procTokens_ok_mem (planTokens plan 0) [] found hproc en hen
          with hmem' | hmem'
        · exact absurd hmem' (List.not_mem_nil en)
        · obtain ⟨k, ln0, m, hk, hm, he⟩ := planTokens_mem _ 0 hmem'
          have hpar := (MatchSpec_bounds (lineMatches_spec ln0) m hm).2.2.2.1
          refine ⟨k, ln0, m, hk, hm, hpar, ?_, ?_, ?_⟩
          · rw [he]
          · rw [he]
          · rw [he]
            simp

/-- **C6 witness**: instantiated at the 3-row example plan. -/
theorem claim_C6_witness :
    ((find_rooms ["+---+".toList, "|(A)|".toList, "+---+".toList]
      []).err = none) ∧
    ((⟨['A'], 1, 1, Chairs.zero⟩ : Room) ∈
      (find_rooms ["+---+".toList, "|(A)|".toList, "+---+".toList]
        []).rooms) ∧
    ((⟨['A'], 1, 1, Chairs.zero⟩ : Room) ∈ ([] : List Room) ∨
      ∃ (row : Nat) (ln0 : List Char) (m : Nat × Nat),
        ["+---+".toList, "|(A)|".toList, "+---+".toList][row]? =
          some ln0 ∧
        m ∈ lineMatches ln0 ∧ ln0[m.1]? = some '(' ∧
        (⟨['A'], 1, 1, Chairs.zero⟩ : Room).name =
          trim (matchInner ln0 m) ∧
        (⟨['A'], 1, 1, Chairs.zero⟩ : Room).x = (m.1 : Int) ∧
        (⟨['A'], 1, 1, Chairs.zero⟩ : Room).y = (row : Int)) :=
  ⟨by decide, by decide,
    claim_C6 ["+---+".toList, "|(A)|".toList, "+---+".toList] []
      (by decide) ⟨['A'], 1, 1, Chairs.zero⟩ (by decide)⟩

/-- **C7** The flood fill terminates: for every finite grid and every
room, after finitely many steps of the loop the frontier is empty. -/
theorem claim_C7 (plan : List (List Char)) (room : Room) :
    ∃ n : Nat, (runSteps n (initSt plan room)).q = [] :=
  ⟨bfsFuel plan [(room.x, room.y)], runSteps_drains _ _ (le_refl _)⟩

/-- **C8 counterexample**: on the plan `["(A)", "(A)"]` the duplicate
error carries only the name and the ORIGINAL position `(0, 0)`; the
duplicate occurrence's position `(1, 0)` appears nowhere in the raised
message, so the error does not report both positions. -/
theorem claim_C8_counterexample :
    (find_rooms ["(A)".toList, "(A)".toList] []).err =
      some (.duplicateName ['A'] (0, 0)) ∧
    containsSeq (posRender (1, 0))
      (PlanError.message (.duplicateName ['A'] (0, 0))) = false ∧
    containsSeq (posRender (0, 0))
      (PlanError.message (.duplicateName ['A'] (0, 0))) = true := by
  decide

/-- **C8 amended** When `find_rooms` fails on a duplicate name, the error
carries the name and the position of the first-encountered occurrence of
that name in scan order (rows top-to-bottom, left-to-right), and its
message interpolates exactly the name and that original position — the
duplicate occurrence's own position is not part of the error. -/
theorem claim_C8 (plan : List (List Char)) (rooms : List Room)
    (n : List Char) (p : Nat × Nat)
    (h : (find_rooms plan rooms).err = some (.duplicateName n p)) :
    firstPos (planTokens plan 0) n = some p ∧ n ≠ [] ∧
    (PlanError.duplicateName n p).message =
      "Duplicate room name ".toList ++ n ++
        ", initially defined at ".toList ++ posRender p := by
  cases hres : (scanRows plan 0 []).2 with
  | ok found =>
      rw [find_rooms_eq_ok rooms hres] at h
      exact Option.noConfusion h
  | error e =>
      rw [find_rooms_eq_err rooms hres] at h
      obtain rfl : e = .duplicateName n p := Option.some.inj h
      rw [scanRows_tokens] at hres
      have := procTokens_dup_first (planTokens plan 0) [] []
        (fun m => rfl) hres
      rw [List.nil_append] at this
      exact ⟨this.1, this.2, rfl⟩

/-- **C8 witness**: instantiated at the two-row duplicate plan. -/
theorem claim_C8_witness :
    ((find_rooms ["(A)".toList, "(A)".toList] []).err =
      some (.duplicateName ['A'] (0, 0))) ∧
    (firstPos (planTokens ["(A)".toList, "(A)".toList] 0) ['A'] =
      some (0, 0) ∧ (['A'] : List Char) ≠ [] ∧
    (PlanError.duplicateName ['A'] (0, 0)).message =
      "Duplicate room name ".toList ++ ['A'] ++
        ", initially defined at ".toList ++ posRender (0, 0)) :=
  ⟨by decide, claim_C8 ["(A)".toList, "(A)".toList] [] ['A'] (0, 0)
    (by decide)⟩

/-- **C9 counterexample**: on a 2×2 open grid the coordinate `(1, 1)` is
appended to the frontier twice during a single traversal, refuting
"no coordinate is ever appended to the queue a second time". -/
theorem claim_C9_counterexample :
    ((find_chairs_run [[' ', ' '], [' ', ' ']]
      ⟨['A'], 0, 0, Chairs.zero⟩).enqLog.count
        ((1 : Int), (1 : Int)) = 2) ∧
    ¬ ((find_chairs_run [[' ', ' '], [' ', ' ']]
      ⟨['A'], 0, 0, Chairs.zero⟩).enqLog.count
        ((1 : Int), (1 : Int)) ≤ 1) := by
  decide

/-- **C9 amended** A coordinate may be appended to the frontier more than
once, but the dequeue-time visited check ensures every cell is expanded
(processed past the check) at most once per traversal: the processed
trace has no duplicates. -/
theorem claim_C9 (plan : List (List Char)) (room : Room) :
    (find_chairs_run plan room).trace.Nodup :=
  (find_chairs_inv plan room).traceND

/-- **C10** When `find_rooms` raises an error, `self.rooms` is exactly
what it was before the call: rooms are appended only after the whole scan
has succeeded, even though the grid may already be partially erased. -/
theorem claim_C10 (plan : List (List Char)) (rooms : List Room)
    (h : (find_rooms plan rooms).err ≠ none) :
    (find_rooms plan rooms).rooms = rooms := by
  cases hres : (scanRows plan 0 []).2 with
  | ok found =>
      rw [find_rooms_eq_ok rooms hres] at h
      exact absurd rfl h
  | error e =>
      rw [find_rooms_eq_err rooms hres]

/-- **C10 witness**: instantiated at an erroring plan with a pre-existing
rooms list. -/
theorem claim_C10_witness :
    ((find_rooms ["()".toList] [⟨['B'], 3, 4, Chairs.zero⟩]).err ≠
      none) ∧
    (find_rooms ["()".toList] [⟨['B'], 3, 4, Chairs.zero⟩]).rooms =
      [⟨['B'], 3, 4, Chairs.zero⟩] :=
  ⟨by decide, claim_C10 ["()".toList] [⟨['B'], 3, 4, Chairs.zero⟩]
    (by decide)⟩

end ChairsPlanner
